import Mathlib

/-!
# Hash-prefix cache (`internal/filtering/hashprefix/cache.go`)

A shallow embedding of the cache codec (`toCacheItem`, `fromCacheItem`), of the
lookup (`findInCache`) and of the store round (`storeInCache`, `setCache`),
followed by theorems about them.

Modelling conventions.

* A byte is a `Fin 256`; a Go byte slice is a `List Byte` whose capacity equals
  its length, so a slice expression reaching past the length is a run-time
  panic.  A panic is the result `none`.
* `time.Time` is an `Int`: nanoseconds since the Unix epoch.  `Time.Unix()` is
  the floor division by `10^9`, `time.Unix(s, 0)` is `s * 10^9`, `Time.Add d`
  adds, `now.After(t)` is `t < now`.  Go keeps `s + unixToInternal` in an
  `int64`, so `time.Unix(s, 0)` is this instant only while that sum stays below
  `2^63`; the theorems that read records they did not write bound the stored
  seconds accordingly.
* `int64`/`uint64` conversions are explicit arithmetic modulo `2^64`.
* The constants `hashSize` and `prefixLen` and the array types built on them are
  declared outside `cache.go`; they are the fields of `Params`.
* `time.Now()` is a parameter of the operation that reads it; one store round
  reads one instant.
-/

namespace Hashprefix

/-- One byte. -/
abbrev Byte := Fin 256

/-- Size of the expiry field of an encoded `cacheItem` (`expirySize`). -/
def expirySize : Nat := 8

/-- Nanoseconds in one second. -/
def nanosPerSecond : Int := 1000000000

/-- Modelled from the spec: the constants `hashSize` and `prefixLen` are declared
outside `cache.go` (HASH_SIZE and PREFIX_LEN of the spec).  The two side
conditions are what the Go compiler enforces on the source: `len(data)/hashSize`
is a division by a constant, and `hash[:prefixLen]` slices an array of
`hashSize` bytes with a constant bound. -/
structure Params where
  hashSize : Nat
  prefixLen : Nat
  hashSize_pos : 0 < hashSize
  prefixLen_le : prefixLen ≤ hashSize

/-- Modelled from the spec: `hostnameHash` is `[hashSize]byte`, a fixed-size byte
sequence of length HASH_SIZE. -/
abbrev hostnameHash (P : Params) : Type := { l : List Byte // l.length = P.hashSize }

/-- The zero value of `hostnameHash`: `hashSize` zero bytes. -/
def zeroHash (P : Params) : hostnameHash P :=
  ⟨List.replicate P.hashSize 0, List.length_replicate _ _⟩

/-- Record stored in the cache (`cacheItem`): expiry instant and hashed hostnames. -/
structure cacheItem (P : Params) where
  expiry : Int
  hashes : List (hostnameHash P)
deriving DecidableEq

/-- Seconds since the epoch of an instant (`Time.Unix`). -/
def timeToUnix (t : Int) : Int := t / nanosPerSecond

/-- Instant of a whole number of seconds (`time.Unix(sec, 0)`), for `sec` with
`sec + unixToInternal < 2^63`; beyond that bound Go's sum wraps and the instant
it builds lies before year 1. -/
def timeUnix (sec : Int) : Int := sec * nanosPerSecond

/-- Seconds from year 1 to the Unix epoch (`unixToInternal` of package `time`):
`time.Unix(sec, 0)` keeps `sec + unixToInternal` in an `int64`. -/
def unixToInternal : Int := 62135596800

/-- Conversion `uint64(x)` of an `int64`. -/
def toUint64 (x : Int) : Nat := (x % 18446744073709551616).toNat

/-- Conversion `int64(u)` of a `uint64`. -/
def toInt64 (u : Nat) : Int :=
  if u % 18446744073709551616 < 9223372036854775808 then ((u % 18446744073709551616 : Nat) : Int)
  else ((u % 18446744073709551616 : Nat) : Int) - 18446744073709551616

/-- Byte `k` (0 is the most significant) of the big-endian form of `v`. -/
def beByte (v : Nat) (k : Nat) : Byte :=
  ⟨(v / 256 ^ (7 - k)) % 256, Nat.mod_lt _ (by decide)⟩

/-- The eight bytes written by `binary.BigEndian.PutUint64`. -/
def uint64Bytes (v : Nat) : List Byte :=
  [beByte v 0, beByte v 1, beByte v 2, beByte v 3, beByte v 4, beByte v 5, beByte v 6, beByte v 7]

/-- Writes `v` big-endian over the first eight bytes of `b`
(`binary.BigEndian.PutUint64(b, v)`, for `b` of at least eight bytes). -/
def putUint64 (b : List Byte) (v : Nat) : List Byte :=
  uint64Bytes v ++ b.drop 8

/-- Reads the first eight bytes of `b` big-endian (`binary.BigEndian.Uint64`);
fewer than eight bytes is an index-out-of-range panic. -/
def uint64Of (b : List Byte) : Option Nat :=
  match b with
  | b0 :: b1 :: b2 :: b3 :: b4 :: b5 :: b6 :: b7 :: _ =>
    some (b7.val + 256 * (b6.val + 256 * (b5.val + 256 * (b4.val + 256 * (b3.val
      + 256 * (b2.val + 256 * (b1.val + 256 * b0.val)))))))
  | _ => none

/-- The decoding loop of `toCacheItem`, `for i := 0; i < len(data); i += hashSize`,
run on the bytes from `i` on, with at most `fuel` iterations left.  The slice
`data[i:i+hashSize]` panics when fewer than `hashSize` bytes remain. -/
def decodeLoop (P : Params) : Nat → List Byte → List (hostnameHash P) →
    Option (List (hostnameHash P))
  | 0, rest, hashes => if rest = [] then some hashes else none
  | fuel + 1, rest, hashes =>
    if rest = [] then some hashes
    else if h : P.hashSize ≤ rest.length then
      decodeLoop P fuel (rest.drop P.hashSize)
        (hashes ++ [⟨rest.take P.hashSize, by simp [List.length_take, h]⟩])
    else none

/-- Decodes a `cacheItem` from `data` (`toCacheItem`). -/
def toCacheItem (P : Params) (data : List Byte) : Option (cacheItem P) :=
  match uint64Of data with
  | none => none
  | some u =>
    let t := timeUnix (toInt64 u)
    let data := data.drop expirySize
    let hashes := List.replicate (data.length / P.hashSize) (zeroHash P)
    match decodeLoop P data.length data hashes with
    | none => none
    | some hashes => some { expiry := t, hashes := hashes }

/-- Encodes a `cacheItem` into bytes (`fromCacheItem`). -/
def fromCacheItem (P : Params) (item : cacheItem P) : List Byte :=
  let data := List.replicate (item.hashes.length * P.hashSize + expirySize) (0 : Byte)
  let expiry := timeToUnix item.expiry
  let data := putUint64 (data.take expirySize) (toUint64 expiry) ++ data.drop expirySize
  item.hashes.foldl (fun d v => d ++ v.val) data

/-- Modelled from the spec: `findMatch` is declared outside `cache.go`; it compares
every hash of `a` with the hashes of `b` for exact equality and reports whether
some hash of `a` occurs in `b`. -/
def findMatch {P : Params} (a b : List (hostnameHash P)) : Bool :=
  a.any (fun hash => b.contains hash)

/-- Modelled from the spec: the CacheStore is an external byte-keyed store whose
`Get` returns the bytes stored under a key or nothing, and whose `Set`
overwrites unconditionally. -/
abbrev Cache : Type := List Byte → Option (List Byte)

/-- The store that holds nothing. -/
def Cache.empty : Cache := fun _ => none

/-- Reads the value under `key` (`Get`); `none` is Go's `nil`. -/
def Cache.Get (c : Cache) (key : List Byte) : Option (List Byte) := c key

/-- Writes `val` under `key` (`Set`). -/
def Cache.Set (c : Cache) (key val : List Byte) : Cache :=
  fun k => if k = key then some val else c k

/-- The fields of `Checker` that `cache.go` uses: the store and the TTL
(`cacheTime`, in nanoseconds). -/
structure Checker where
  cache : Cache
  cacheTime : Int

/-- Result of `findInCache`: `(found, blocked, hashesToRequest)`. -/
abbrev LookupResult (P : Params) : Type := Bool × Bool × List (hostnameHash P)

/-- The key of a hash: `hash[:prefixLen]`. -/
def prefixOf {P : Params} (hash : hostnameHash P) : List Byte :=
  hash.val.take P.prefixLen

/-- The loop of `findInCache`, `for _, hash := range hashes`, with `n` iterations
left, at index `j`, with write index `i`, over the slice `hashes` that the loop
body overwrites in place. -/
def findInCacheLoop (P : Params) (c : Checker) (now : Int) :
    Nat → Nat → Nat → List (hostnameHash P) → Option (LookupResult P)
  | 0, _, i, hashes =>
    if i = 0 then some (true, false, []) else some (false, false, hashes.take i)
  | n + 1, j, i, hashes =>
    match hashes.get? j with
    | none => none
    | some hash =>
      match c.cache.Get (prefixOf hash) with
      | none => findInCacheLoop P c now n (j + 1) (i + 1) (hashes.set i hash)
      | some data =>
        match toCacheItem P data with
        | none => none
        | some item =>
          if item.expiry < now then
            findInCacheLoop P c now n (j + 1) (i + 1) (hashes.set i hash)
          else if findMatch hashes item.hashes then some (true, true, [])
          else findInCacheLoop P c now n (j + 1) i hashes

/-- Finds hashes in the cache at instant `now` (`findInCache`); `none` is a
panic. -/
def findInCache (P : Params) (c : Checker) (now : Int) (hashes : List (hostnameHash P)) :
    Option (LookupResult P) :=
  findInCacheLoop P c now hashes.length 0 0 hashes

/-- Stores `hashes` under `pref` with expiry `now + cacheTime` (`setCache`). -/
def setCache (P : Params) (c : Checker) (now : Int) (pref : List Byte)
    (hashes : List (hostnameHash P)) : Checker :=
  { cache := c.cache.Set pref (fromCacheItem P { expiry := now + c.cacheTime, hashes := hashes }),
    cacheTime := c.cacheTime }

/-- The key built in the first loop of `storeInCache`:
`var pref prefix; copy(pref[:], hash[:])`. -/
def copyPrefix {P : Params} (hash : hostnameHash P) : List Byte :=
  hash.val.take P.prefixLen ++ List.replicate (P.prefixLen - min P.prefixLen hash.val.length) 0

/-- The Go map `hashToStore` as an association list in order of first insertion. -/
abbrev HashMap (P : Params) : Type := List (List Byte × List (hostnameHash P))

/-- The statement `hashToStore[pref] = append(hashToStore[pref], hash)`. -/
def mapAppend {P : Params} : HashMap P → List Byte → hostnameHash P → HashMap P
  | [], pref, hash => [(pref, [hash])]
  | (k, v) :: rest, pref, hash =>
    if k = pref then (k, v ++ [hash]) :: rest else (k, v) :: mapAppend rest pref hash

/-- The first loop of `storeInCache`: groups `respHashes` by key. -/
def groupByPrefix (P : Params) (respHashes : List (hostnameHash P)) : HashMap P :=
  respHashes.foldl (fun m hash => mapAppend m (copyPrefix hash) hash) []

/-- The second loop of `storeInCache`: one `setCache` for each entry of the map. -/
def storeGroups (P : Params) (c : Checker) (now : Int) (m : HashMap P) : Checker :=
  m.foldl (fun c e => setCache P c now e.1 e.2) c

/-- The third loop of `storeInCache`: an empty record under each requested key
for which `Get` returns nothing. -/
def storeMissing (P : Params) (c : Checker) (now : Int)
    (hashesToRequest : List (hostnameHash P)) : Checker :=
  hashesToRequest.foldl
    (fun c hash =>
      match c.cache.Get (prefixOf hash) with
      | none => setCache P c now (prefixOf hash) []
      | some _ => c)
    c

/-- Caches the hashes of one upstream round at instant `now` (`storeInCache`).
Go leaves the iteration order of the map unspecified; the entries are visited
here in order of first insertion. -/
def storeInCache (P : Params) (c : Checker) (now : Int)
    (hashesToRequest respHashes : List (hostnameHash P)) : Checker :=
  storeMissing P (storeGroups P c now (groupByPrefix P respHashes)) now hashesToRequest

/-- The raw bytes of a list of hashes, in order. -/
def hashBytes {P : Params} (l : List (hostnameHash P)) : List Byte :=
  (l.map Subtype.val).flatten

/-- What one iteration of the loop of `findInCache` learns about `hash`
(lines 66-80): `none` when decoding the stored value panics, `some none` when
the hash is kept for upstream (no value under its key, or an expired record),
`some (some item)` when a record that has not expired was decoded. -/
def fetch (P : Params) (c : Checker) (now : Int) (hash : hostnameHash P) :
    Option (Option (cacheItem P)) :=
  match c.cache.Get (prefixOf hash) with
  | none => some none
  | some data =>
    match toCacheItem P data with
    | none => none
    | some item => if item.expiry < now then some none else some (some item)

/-- The loop of `findInCache` as a recursion over the candidates still to visit,
with the hashes kept so far; the slice the loop compares against records is
`pend ++ orig.drop pend.length`. -/
def lookupFrom (P : Params) (c : Checker) (now : Int) (orig : List (hostnameHash P)) :
    List (hostnameHash P) → List (hostnameHash P) → Option (LookupResult P)
  | [], pend => if pend.length = 0 then some (true, false, []) else some (false, false, pend)
  | hash :: rest, pend =>
    match fetch P c now hash with
    | none => none
    | some none => lookupFrom P c now orig rest (pend ++ [hash])
    | some (some item) =>
      if findMatch (pend ++ orig.drop pend.length) item.hashes then some (true, true, [])
      else lookupFrom P c now orig rest pend

/-- Whether the loop of `findInCache` finds, under the key of `hash`, a record
that decodes and has not expired at `now` (lines 66-80). -/
def hasValidRecord (P : Params) (c : Checker) (now : Int) (hash : hostnameHash P) : Bool :=
  match c.cache.Get (prefixOf hash) with
  | none => false
  | some data =>
    match toCacheItem P data with
    | none => false
    | some item => !decide (item.expiry < now)

/-- The value returned at the end of the loop of `findInCache` with `pend` kept. -/
def finish {P : Params} (pend : List (hostnameHash P)) : Option (LookupResult P) :=
  if pend.length = 0 then some (true, false, []) else some (false, false, pend)

/-- The map read `hashToStore[pref]`, `none` for a key that is not in the map. -/
def mapGet {P : Params} : HashMap P → List Byte → Option (List (hostnameHash P))
  | [], _ => none
  | (k, v) :: rest, pref => if k = pref then some v else mapGet rest pref

/-- The hashes of `respHashes` whose key is `pref`, in the order of `respHashes`. -/
def groupOf {P : Params} (respHashes : List (hostnameHash P)) (pref : List Byte) :
    List (hostnameHash P) :=
  respHashes.filter (fun hash => decide (prefixOf hash = pref))

/-- Parameters used to evaluate the code on concrete inputs: hashes of four
bytes with keys of two bytes. -/
def smallParams : Params :=
  { hashSize := 4, prefixLen := 2, hashSize_pos := by decide, prefixLen_le := by decide }

/-- A hash with key `"ab"`. -/
def hashAB : hostnameHash smallParams := ⟨[0x61, 0x62, 1, 1], rfl⟩

/-- A hash with key `"cd"`. -/
def hashCD : hostnameHash smallParams := ⟨[0x63, 0x64, 2, 2], rfl⟩

/-- A second hash with key `"ab"`. -/
def hashAB2 : hostnameHash smallParams := ⟨[0x61, 0x62, 3, 3], rfl⟩

/-- A hash that is not zero and has the key of the zero hash. -/
def hashZ1 : hostnameHash smallParams := ⟨[0, 0, 0, 1], rfl⟩

/-- A checker with an empty store and a TTL of one second. -/
def emptyChecker : Checker := { cache := Cache.empty, cacheTime := 1000000000 }

/-- A checker whose store holds a three-byte value under `"cd"` and, under `"ab"`,
the bytes of a record that expires at second 9 and lists `hashAB`. -/
def brokenChecker : Checker :=
  { cache := (Cache.empty.Set [0x63, 0x64] [1, 2, 3]).Set [0x61, 0x62]
      [0, 0, 0, 0, 0, 0, 0, 9, 0x61, 0x62, 1, 1],
    cacheTime := 1000000000 }

/-- A checker whose store holds, under `"ab"` and under `"cd"`, an empty record
that expires at second 9. -/
def negativeChecker : Checker :=
  { cache := (Cache.empty.Set [0x61, 0x62] [0, 0, 0, 0, 0, 0, 0, 9]).Set [0x63, 0x64]
      [0, 0, 0, 0, 0, 0, 0, 9],
    cacheTime := 1000000000 }

/-- The instant read back from a record written with expiry `t`: `t` rounded down
to a whole second. -/
def storedExpiry (t : Int) : Int := timeUnix (timeToUnix t)

/-- A checker whose store holds under `"cd"` an empty record that expired at
second 1. -/
def staleChecker : Checker :=
  { cache := Cache.empty.Set [0x63, 0x64] [0, 0, 0, 0, 0, 0, 0, 1], cacheTime := 1000000000 }

/-- The ways a call of `toCacheItem` can end.  The Go function has one result, the
record, and no error value, so `decodeOutcome` only ever yields `record` or
`panic`; `malformedRecord` is the error of the spec. -/
inductive DecodeOutcome (P : Params) where
  | record (item : cacheItem P)
  | malformedRecord
  | panic
deriving DecidableEq

/-- How `toCacheItem` ends on `data`. -/
def decodeOutcome (P : Params) (data : List Byte) : DecodeOutcome P :=
  match toCacheItem P data with
  | some item => DecodeOutcome.record item
  | none => DecodeOutcome.panic

/-- A checker whose store holds under `"ab"` an empty record and under `"cd"` a
record that lists `hashAB`, both expiring at second 9. -/
def shadowChecker : Checker :=
  { cache := (Cache.empty.Set [0x61, 0x62] [0, 0, 0, 0, 0, 0, 0, 9]).Set [0x63, 0x64]
      [0, 0, 0, 0, 0, 0, 0, 9, 0x61, 0x62, 1, 1],
    cacheTime := 1000000000 }

/-- A second hash with key `"cd"`. -/
def hashCD2 : hostnameHash smallParams := ⟨[0x63, 0x64, 4, 4], rfl⟩

/-- A checker whose store holds under `"ab"` a record that lists `hashAB2` and
under `"cd"` an empty record, both expiring at second 9. -/
def listedChecker : Checker :=
  { cache := (Cache.empty.Set [0x61, 0x62] [0, 0, 0, 0, 0, 0, 0, 9, 0x61, 0x62, 3, 3]).Set
      [0x63, 0x64] [0, 0, 0, 0, 0, 0, 0, 9],
    cacheTime := 1000000000 }

/-- The instant that `time.Unix(sec, 0)` builds for any `int64`: Go adds
`unixToInternal` to `sec` in an `int64`, where the sum wraps, and reads the
result as seconds since year 1. -/
def timeUnixWrapped (sec : Int) : Int :=
  (toInt64 (toUint64 (sec + unixToInternal)) - unixToInternal) * nanosPerSecond

/-! ## Codec lemmas -/

theorem toInt64_toUint64 (x : Int) (h1 : -9223372036854775808 ≤ x) (h2 : x < 9223372036854775808) :
    toInt64 (toUint64 x) = x := by
  unfold toInt64 toUint64
  have hnn : 0 ≤ x % 18446744073709551616 := Int.emod_nonneg _ (by decide)
  have hlt : x % 18446744073709551616 < 18446744073709551616 := Int.emod_lt_of_pos _ (by decide)
  have hm : ((x % 18446744073709551616).toNat % 18446744073709551616 : Nat) = (x % 18446744073709551616).toNat := by
    apply Nat.mod_eq_of_lt
    omega
  rw [hm]
  split <;> omega

theorem uint64Of_uint64Bytes (v : Nat) (rest : List Byte) :
    uint64Of (uint64Bytes v ++ rest) = some (v % 18446744073709551616) := by
  simp only [uint64Bytes, uint64Of, List.cons_append, List.nil_append, beByte, Option.some.injEq]
  norm_num
  omega

theorem uint64Of_eq_none_iff (b : List Byte) : uint64Of b = none ↔ b.length < 8 := by
  match b with
  | [] => simp [uint64Of]
  | [_] => simp [uint64Of]
  | [_, _] => simp [uint64Of]
  | [_, _, _] => simp [uint64Of]
  | [_, _, _, _] => simp [uint64Of]
  | [_, _, _, _, _] => simp [uint64Of]
  | [_, _, _, _, _, _] => simp [uint64Of]
  | [_, _, _, _, _, _, _] => simp [uint64Of]
  | _ :: _ :: _ :: _ :: _ :: _ :: _ :: _ :: _ => simp [uint64Of]

theorem hashBytes_nil {P : Params} : hashBytes ([] : List (hostnameHash P)) = [] := rfl

theorem hashBytes_cons {P : Params} (h : hostnameHash P) (t : List (hostnameHash P)) :
    hashBytes (h :: t) = h.val ++ hashBytes t := rfl

theorem hashBytes_append {P : Params} (l₁ l₂ : List (hostnameHash P)) :
    hashBytes (l₁ ++ l₂) = hashBytes l₁ ++ hashBytes l₂ := by
  simp [hashBytes]

theorem hashBytes_length {P : Params} (l : List (hostnameHash P)) :
    (hashBytes l).length = l.length * P.hashSize := by
  induction l with
  | nil => simp [hashBytes]
  | cons h t ih =>
    rw [hashBytes_cons, List.length_append, ih, h.property, List.length_cons]
    ring

theorem hashBytes_replicate_zero (P : Params) (n : Nat) :
    hashBytes (List.replicate n (zeroHash P)) = List.replicate (n * P.hashSize) 0 := by
  induction n with
  | zero => simp [hashBytes]
  | succ n ih =>
    rw [List.replicate_succ, hashBytes_cons, ih]
    simp only [zeroHash]
    rw [← List.replicate_add]
    congr 1
    ring

theorem foldl_append_val {P : Params} (l : List (hostnameHash P)) (d : List Byte) :
    l.foldl (fun d v => d ++ v.val) d = d ++ hashBytes l := by
  induction l generalizing d with
  | nil => simp [hashBytes]
  | cons h t ih => rw [List.foldl_cons, ih, hashBytes_cons, List.append_assoc]

theorem fromCacheItem_eq (P : Params) (item : cacheItem P) :
    fromCacheItem P item =
      uint64Bytes (toUint64 (timeToUnix item.expiry)) ++
        hashBytes (List.replicate item.hashes.length (zeroHash P) ++ item.hashes) := by
  unfold fromCacheItem
  simp only [foldl_append_val, putUint64, expirySize, hashBytes_append, hashBytes_replicate_zero]
  simp [List.take_replicate, List.drop_replicate]

theorem decodeLoop_hashBytes {P : Params} (l : List (hostnameHash P)) (fuel : Nat)
    (acc : List (hostnameHash P)) (hf : l.length ≤ fuel) :
    decodeLoop P fuel (hashBytes l) acc = some (acc ++ l) := by
  induction l generalizing fuel acc with
  | nil => cases fuel <;> simp [decodeLoop, hashBytes]
  | cons h t ih =>
    cases fuel with
    | zero => simp at hf
    | succ f =>
      have hpos := P.hashSize_pos
      have hlen : h.val.length = P.hashSize := h.property
      have hne : hashBytes (h :: t) ≠ [] := by
        intro he
        have := congrArg List.length he
        rw [hashBytes_cons, List.length_append] at this
        simp at this
        omega
      have hle : P.hashSize ≤ (hashBytes (h :: t)).length := by
        rw [hashBytes_cons, List.length_append]; omega
      have hdrop : (hashBytes (h :: t)).drop P.hashSize = hashBytes t := by
        rw [hashBytes_cons, List.drop_left' hlen]
      have htake : (hashBytes (h :: t)).take P.hashSize = h.val := by
        rw [hashBytes_cons, List.take_left' hlen]
      rw [decodeLoop, if_neg hne, dif_pos hle]
      simp only [hdrop, htake]
      rw [ih f _ (by simpa using hf)]
      simp

theorem toCacheItem_encoded (P : Params) (v : Nat) (l : List (hostnameHash P)) :
    toCacheItem P (uint64Bytes v ++ hashBytes l) =
      some { expiry := timeUnix (toInt64 (v % 18446744073709551616)),
             hashes := List.replicate l.length (zeroHash P) ++ l } := by
  have hdrop : (uint64Bytes v ++ hashBytes l).drop expirySize = hashBytes l := by
    simp [uint64Bytes, expirySize]
  have hdiv : (hashBytes l).length / P.hashSize = l.length := by
    rw [hashBytes_length]
    exact Nat.mul_div_cancel _ P.hashSize_pos
  have hfuel : l.length ≤ (hashBytes l).length := by
    rw [hashBytes_length]
    exact Nat.le_mul_of_pos_right _ P.hashSize_pos
  unfold toCacheItem
  rw [uint64Of_uint64Bytes]
  simp only [hdrop, hdiv, decodeLoop_hashBytes l _ _ hfuel]

theorem toCacheItem_fromCacheItem (P : Params) (item : cacheItem P) :
    toCacheItem P (fromCacheItem P item) =
      some { expiry := timeUnix (toInt64 (toUint64 (timeToUnix item.expiry))),
             hashes := List.replicate (3 * item.hashes.length) (zeroHash P) ++ item.hashes } := by
  rw [fromCacheItem_eq, toCacheItem_encoded]
  have hm : toUint64 (timeToUnix item.expiry) % 18446744073709551616
      = toUint64 (timeToUnix item.expiry) := by
    apply Nat.mod_eq_of_lt
    unfold toUint64
    have := Int.emod_lt_of_pos (timeToUnix item.expiry) (show (0:Int) < 18446744073709551616 by decide)
    have := Int.emod_nonneg (timeToUnix item.expiry) (show (18446744073709551616:Int) ≠ 0 by decide)
    omega
  rw [hm]
  congr 2
  rw [List.length_append, List.length_replicate, ← List.append_assoc, ← List.replicate_add]
  congr 2
  ring

/-! ## Lookup lemmas -/

theorem findInCacheLoop_eq (P : Params) (c : Checker) (now : Int) (orig : List (hostnameHash P))
    (n j : Nat) (pend : List (hostnameHash P)) (hij : pend.length ≤ j)
    (hn : j + n = orig.length) :
    findInCacheLoop P c now n j pend.length (pend ++ orig.drop pend.length) =
      lookupFrom P c now orig (orig.drop j) pend := by
  induction n generalizing j pend with
  | zero =>
    have hj : orig.length ≤ j := by omega
    rw [List.drop_of_length_le hj]
    simp [findInCacheLoop, lookupFrom]
  | succ n ih =>
    have hj : j < orig.length := by omega
    have hdrop : orig.drop j = orig.get ⟨j, hj⟩ :: orig.drop (j + 1) := by
      simp
    have hget : (pend ++ orig.drop pend.length).get? j = some (orig.get ⟨j, hj⟩) := by
      rw [List.get?_eq_getElem?, List.getElem?_append_right hij, List.getElem?_drop]
      have : pend.length + (j - pend.length) = j := by omega
      rw [this]
      simp [List.getElem?_eq_getElem hj]
    have hset : (pend ++ orig.drop pend.length).set pend.length (orig.get ⟨j, hj⟩)
        = (pend ++ [orig.get ⟨j, hj⟩]) ++ orig.drop (pend ++ [orig.get ⟨j, hj⟩]).length := by
      have hi : pend.length < orig.length := by omega
      rw [List.set_append_right _ _ (le_refl _), Nat.sub_self]
      have : orig.drop pend.length = orig.get ⟨pend.length, hi⟩ :: orig.drop (pend.length + 1) := by
        simp
      rw [this]
      simp only [List.set_cons_zero, List.length_append, List.length_singleton, List.append_assoc,
        List.singleton_append, List.length_cons, List.length_nil]
    have hlen : (pend ++ [orig.get ⟨j, hj⟩]).length = pend.length + 1 := by simp
    rw [findInCacheLoop, hget, hdrop, lookupFrom]
    simp only [fetch]
    cases hg : c.cache.Get (prefixOf (orig.get ⟨j, hj⟩)) with
    | none =>
      simp only
      rw [hset, ← hlen]
      exact ih (j + 1) _ (by rw [hlen]; omega) (by omega)
    | some data =>
      simp only
      cases hd : toCacheItem P data with
      | none => rfl
      | some item =>
        simp only
        by_cases he : item.expiry < now
        · rw [if_pos he, if_pos he]
          simp only
          rw [hset, ← hlen]
          exact ih (j + 1) _ (by rw [hlen]; omega) (by omega)
        · rw [if_neg he, if_neg he]
          simp only
          by_cases hm : findMatch (pend ++ orig.drop pend.length) item.hashes = true
          · rw [if_pos hm, if_pos hm]
          · rw [if_neg hm, if_neg hm]
            exact ih (j + 1) pend (by omega) (by omega)

theorem findInCache_eq (P : Params) (c : Checker) (now : Int) (hashes : List (hostnameHash P)) :
    findInCache P c now hashes = lookupFrom P c now hashes hashes [] := by
  have := findInCacheLoop_eq P c now hashes hashes.length 0 [] (by simp) (by simp)
  simpa [findInCache] using this

theorem fetch_valid_iff (P : Params) (c : Checker) (now : Int) (hash : hostnameHash P)
    (item : cacheItem P) :
    fetch P c now hash = some (some item) ↔
      ∃ data, c.cache.Get (prefixOf hash) = some data ∧ toCacheItem P data = some item ∧
        ¬ item.expiry < now := by
  unfold fetch
  cases hg : c.cache.Get (prefixOf hash) with
  | none => simp
  | some data =>
    cases hd : toCacheItem P data with
    | none => simp [hd]
    | some it =>
      by_cases he : it.expiry < now
      · simp only [if_pos he, hd, Option.some.injEq, exists_eq_left', reduceCtorEq, false_iff]
        rintro ⟨h1, h2⟩
        subst h1
        exact h2 he
      · simp only [if_neg he, hd, Option.some.injEq, exists_eq_left']
        constructor
        · intro h; subst h; exact ⟨rfl, he⟩
        · intro h; exact h.1

theorem fetch_ne_none_iff (P : Params) (c : Checker) (now : Int) (hash : hostnameHash P) :
    fetch P c now hash ≠ none ↔
      ∀ data, c.cache.Get (prefixOf hash) = some data → toCacheItem P data ≠ none := by
  unfold fetch
  cases hg : c.cache.Get (prefixOf hash) with
  | none => simp
  | some data =>
    cases hd : toCacheItem P data with
    | none => simp [hd]
    | some it =>
      by_cases he : it.expiry < now <;> simp [he, hd]

theorem fetch_miss_iff (P : Params) (c : Checker) (now : Int) (hash : hostnameHash P) :
    fetch P c now hash = some none ↔
      fetch P c now hash ≠ none ∧ hasValidRecord P c now hash = false := by
  unfold fetch hasValidRecord
  cases hg : c.cache.Get (prefixOf hash) with
  | none => simp
  | some data =>
    cases hd : toCacheItem P data with
    | none => simp [hd]
    | some it =>
      by_cases he : it.expiry < now <;> simp [he, hd]

theorem fetch_valid_hasValidRecord (P : Params) (c : Checker) (now : Int) (hash : hostnameHash P)
    (item : cacheItem P) (h : fetch P c now hash = some (some item)) :
    hasValidRecord P c now hash = true := by
  unfold fetch at h
  unfold hasValidRecord
  cases hg : c.cache.Get (prefixOf hash) with
  | none => simp [hg] at h
  | some data =>
    rw [hg] at h
    cases hd : toCacheItem P data with
    | none => simp [hd] at h
    | some it =>
      by_cases he : it.expiry < now <;> simp [he, hd] at h ⊢

theorem findMatch_eq_true_iff {P : Params} (a b : List (hostnameHash P)) :
    findMatch a b = true ↔ ∃ g, g ∈ a ∧ g ∈ b := by
  simp [findMatch]

theorem findMatch_eq_false_iff {P : Params} (a b : List (hostnameHash P)) :
    findMatch a b = false ↔ ∀ g, g ∈ a → g ∉ b := by
  rw [← Bool.not_eq_true, findMatch_eq_true_iff]
  simp

/-- Every hash of the slice compared against records is one of the original hashes
as long as the kept hashes are. -/
theorem mem_slice {P : Params} (orig pend : List (hostnameHash P))
    (hp : ∀ g, g ∈ pend → g ∈ orig) (g : hostnameHash P)
    (hg : g ∈ pend ++ orig.drop pend.length) : g ∈ orig := by
  rcases List.mem_append.mp hg with h | h
  · exact hp g h
  · exact List.mem_of_mem_drop h

theorem lookupFrom_no_match (P : Params) (c : Checker) (now : Int)
    (orig rest pend : List (hostnameHash P))
    (hp : ∀ g, g ∈ pend → g ∈ orig) (hr : ∀ g, g ∈ rest → g ∈ orig)
    (hwf : ∀ h, h ∈ rest → fetch P c now h ≠ none)
    (hno : ∀ h, h ∈ rest → ∀ item, fetch P c now h = some (some item) →
      ∀ g, g ∈ orig → g ∉ item.hashes) :
    lookupFrom P c now orig rest pend =
      finish (pend ++ rest.filter (fun h => !hasValidRecord P c now h)) := by
  induction rest generalizing pend with
  | nil => simp [lookupFrom, finish]
  | cons h t ih =>
    have hwf' : ∀ g, g ∈ t → fetch P c now g ≠ none := fun g hg => hwf g (List.mem_cons_of_mem _ hg)
    have hno' : ∀ g, g ∈ t → ∀ item, fetch P c now g = some (some item) →
        ∀ g, g ∈ orig → g ∉ item.hashes := fun g hg => hno g (List.mem_cons_of_mem _ hg)
    have hr' : ∀ g, g ∈ t → g ∈ orig := fun g hg => hr g (List.mem_cons_of_mem _ hg)
    rw [lookupFrom]
    cases hf : fetch P c now h with
    | none => exact absurd hf (hwf h (List.mem_cons_self _ _))
    | some o =>
      cases o with
      | none =>
        have hv : hasValidRecord P c now h = false := ((fetch_miss_iff P c now h).mp hf).2
        simp only
        rw [ih (pend ++ [h]) _ hr' hwf' hno']
        · simp [List.filter_cons, hv]
        · intro g hg
          rcases List.mem_append.mp hg with h1 | h1
          · exact hp g h1
          · rw [List.mem_singleton.mp h1]; exact hr h (List.mem_cons_self _ _)
      | some item =>
        have hv : hasValidRecord P c now h = true := fetch_valid_hasValidRecord P c now h item hf
        have hm : findMatch (pend ++ orig.drop pend.length) item.hashes = false := by
          rw [findMatch_eq_false_iff]
          intro g hg
          exact hno h (List.mem_cons_self _ _) item hf g (mem_slice orig pend hp g hg)
        simp only [hm]
        rw [ih pend hp hr' hwf' hno']
        simp [List.filter_cons, hv]

theorem lookupFrom_match (P : Params) (c : Checker) (now : Int)
    (orig visited l₁ l₂ pend : List (hostnameHash P)) (h : hostnameHash P) (item : cacheItem P)
    (horig : orig = visited ++ (l₁ ++ h :: l₂)) (hlen : pend.length ≤ visited.length)
    (hwf : ∀ g, g ∈ l₁ → fetch P c now g ≠ none)
    (hf : fetch P c now h = some (some item)) (hin : h ∈ item.hashes) :
    lookupFrom P c now orig (l₁ ++ h :: l₂) pend = some (true, true, []) := by
  have hslice : ∀ (vis rest pnd : List (hostnameHash P)) (g : hostnameHash P),
      orig = vis ++ rest → pnd.length ≤ vis.length → g ∈ rest →
      g ∈ pnd ++ orig.drop pnd.length := by
    intro vis rest pnd g ho hl hg
    apply List.mem_append_right
    rw [ho]
    have : vis ++ rest = vis.take pnd.length ++ (vis.drop pnd.length ++ rest) := by
      rw [← List.append_assoc, List.take_append_drop]
    rw [this, List.drop_left' (by simp [List.length_take]; omega)]
    exact List.mem_append_right _ hg
  induction l₁ generalizing visited pend with
  | nil =>
    rw [List.nil_append, lookupFrom, hf]
    have hm : findMatch (pend ++ orig.drop pend.length) item.hashes = true := by
      rw [findMatch_eq_true_iff]
      exact ⟨h, hslice visited _ pend h horig hlen (by simp), hin⟩
    simp only [hm, if_true]
  | cons g t ih =>
    have hwf' : ∀ x, x ∈ t → fetch P c now x ≠ none := fun x hx => hwf x (List.mem_cons_of_mem _ hx)
    have horig' : orig = (visited ++ [g]) ++ (t ++ h :: l₂) := by
      rw [horig]; simp
    rw [List.cons_append, lookupFrom]
    cases hfg : fetch P c now g with
    | none => exact absurd hfg (hwf g (List.mem_cons_self _ _))
    | some o =>
      cases o with
      | none =>
        simp only
        exact ih (visited ++ [g]) (pend ++ [g]) horig' (by simp; omega) hwf'
      | some item' =>
        simp only
        by_cases hm : findMatch (pend ++ orig.drop pend.length) item'.hashes = true
        · rw [if_pos hm]
        · rw [if_neg hm]
          exact ih (visited ++ [g]) pend horig' (by simp; omega) hwf'

/-! ## Store lemmas -/

theorem copyPrefix_eq {P : Params} (hash : hostnameHash P) : copyPrefix hash = prefixOf hash := by
  unfold copyPrefix prefixOf
  have h1 : hash.val.length = P.hashSize := hash.property
  have h2 := P.prefixLen_le
  have : P.prefixLen - min P.prefixLen hash.val.length = 0 := by omega
  rw [this]
  simp

theorem prefixOf_length {P : Params} (hash : hostnameHash P) :
    (prefixOf hash).length = P.prefixLen := by
  unfold prefixOf
  have h1 : hash.val.length = P.hashSize := hash.property
  have h2 := P.prefixLen_le
  simp [List.length_take]
  omega

theorem mapGet_mapAppend {P : Params} (m : HashMap P) (p : List Byte) (h : hostnameHash P)
    (k : List Byte) :
    mapGet (mapAppend m p h) k =
      if k = p then some ((mapGet m p).getD [] ++ [h]) else mapGet m k := by
  induction m with
  | nil =>
    by_cases hk : k = p
    · simp [mapAppend, mapGet, hk]
    · have : ¬ p = k := fun e => hk e.symm
      simp [mapAppend, mapGet, hk, this]
  | cons e rest ih =>
    obtain ⟨k0, v0⟩ := e
    by_cases h0 : k0 = p
    · subst h0
      by_cases hk : k = k0
      · subst hk; simp [mapAppend, mapGet]
      · have : ¬ k0 = k := fun e => hk e.symm
        simp [mapAppend, mapGet, hk, this]
    · by_cases hk : k = p
      · subst hk
        simp [mapAppend, mapGet, h0, ih]
      · by_cases hk0 : k0 = k
        · simp [mapAppend, mapGet, h0, hk0, hk]
        · simp [mapAppend, mapGet, h0, hk0, hk, ih]

theorem mapAppend_keys {P : Params} (m : HashMap P) (p : List Byte) (h : hostnameHash P) :
    (mapAppend m p h).map Prod.fst =
      if p ∈ m.map Prod.fst then m.map Prod.fst else m.map Prod.fst ++ [p] := by
  induction m with
  | nil => simp [mapAppend]
  | cons e rest ih =>
    obtain ⟨k0, v0⟩ := e
    by_cases h0 : k0 = p
    · subst h0; simp [mapAppend]
    · have h0' : ¬ p = k0 := fun e => h0 e.symm
      simp only [mapAppend, if_neg h0, List.map_cons, ih, List.mem_cons, h0', false_or]
      split <;> simp

theorem mapAppend_nodup {P : Params} (m : HashMap P) (p : List Byte) (h : hostnameHash P)
    (hm : (m.map Prod.fst).Nodup) : ((mapAppend m p h).map Prod.fst).Nodup := by
  rw [mapAppend_keys]
  split
  · exact hm
  · rename_i hp
    rw [List.nodup_append]
    refine ⟨hm, List.nodup_singleton _, ?_⟩
    intro a ha hb
    rw [List.mem_singleton.mp hb] at ha
    exact hp ha

theorem foldl_mapAppend_nodup {P : Params} (l : List (hostnameHash P)) (m : HashMap P)
    (hm : (m.map Prod.fst).Nodup) :
    ((l.foldl (fun m hash => mapAppend m (copyPrefix hash) hash) m).map Prod.fst).Nodup := by
  induction l generalizing m with
  | nil => exact hm
  | cons h t ih => exact ih _ (mapAppend_nodup m _ h hm)

theorem foldl_mapAppend_get {P : Params} (l : List (hostnameHash P)) (m : HashMap P)
    (k : List Byte) :
    mapGet (l.foldl (fun m hash => mapAppend m (copyPrefix hash) hash) m) k =
      if groupOf l k = [] then mapGet m k else some ((mapGet m k).getD [] ++ groupOf l k) := by
  induction l generalizing m with
  | nil => simp [groupOf]
  | cons h t ih =>
    rw [List.foldl_cons, ih, mapGet_mapAppend, copyPrefix_eq]
    by_cases hk : prefixOf h = k
    · have hk' : k = prefixOf h := hk.symm
      have hg : groupOf (h :: t) k = h :: groupOf t k := by
        simp [groupOf, List.filter_cons, hk]
      rw [hg, if_pos hk']
      subst hk'
      by_cases ht : groupOf t (prefixOf h) = []
      · simp [ht]
      · simp [ht]
    · have hk' : ¬ k = prefixOf h := fun e => hk e.symm
      have hg : groupOf (h :: t) k = groupOf t k := by
        simp [groupOf, List.filter_cons, hk]
      rw [hg, if_neg hk']

theorem groupByPrefix_get (P : Params) (resp : List (hostnameHash P)) (k : List Byte) :
    mapGet (groupByPrefix P resp) k =
      if groupOf resp k = [] then none else some (groupOf resp k) := by
  unfold groupByPrefix
  rw [foldl_mapAppend_get]
  simp [mapGet]

theorem groupByPrefix_nodup (P : Params) (resp : List (hostnameHash P)) :
    ((groupByPrefix P resp).map Prod.fst).Nodup :=
  foldl_mapAppend_nodup resp [] (by simp)

theorem mapGet_eq_none_of_not_mem {P : Params} (m : HashMap P) (k : List Byte)
    (hk : k ∉ m.map Prod.fst) : mapGet m k = none := by
  induction m with
  | nil => rfl
  | cons e rest ih =>
    obtain ⟨k0, v0⟩ := e
    simp only [List.map_cons, List.mem_cons, not_or] at hk
    have : ¬ k0 = k := fun e => hk.1 e.symm
    simp [mapGet, this, ih hk.2]

theorem setCache_cache (P : Params) (c : Checker) (now : Int) (p : List Byte)
    (hs : List (hostnameHash P)) (k : List Byte) :
    (setCache P c now p hs).cache k =
      if k = p then some (fromCacheItem P { expiry := now + c.cacheTime, hashes := hs })
      else c.cache k := rfl

theorem setCache_cacheTime (P : Params) (c : Checker) (now : Int) (p : List Byte)
    (hs : List (hostnameHash P)) : (setCache P c now p hs).cacheTime = c.cacheTime := rfl

theorem storeGroups_cacheTime (P : Params) (c : Checker) (now : Int) (m : HashMap P) :
    (storeGroups P c now m).cacheTime = c.cacheTime := by
  unfold storeGroups
  induction m generalizing c with
  | nil => rfl
  | cons e rest ih => rw [List.foldl_cons, ih, setCache_cacheTime]

theorem storeGroups_cache (P : Params) (c : Checker) (now : Int) (m : HashMap P)
    (hm : (m.map Prod.fst).Nodup) (k : List Byte) :
    (storeGroups P c now m).cache k =
      match mapGet m k with
      | some hs => some (fromCacheItem P { expiry := now + c.cacheTime, hashes := hs })
      | none => c.cache k := by
  induction m generalizing c with
  | nil => rfl
  | cons e rest ih =>
    obtain ⟨k0, v0⟩ := e
    rw [List.map_cons, List.nodup_cons] at hm
    have hstep : storeGroups P c now ((k0, v0) :: rest)
        = storeGroups P (setCache P c now k0 v0) now rest := rfl
    rw [hstep, ih _ hm.2, setCache_cacheTime]
    by_cases hk : k0 = k
    · subst hk
      rw [mapGet_eq_none_of_not_mem rest k0 hm.1]
      simp [mapGet, setCache_cache]
    · have hk' : ¬ k = k0 := fun e => hk e.symm
      simp only [mapGet, if_neg hk, setCache_cache, if_neg hk']

theorem storeMissing_cacheTime (P : Params) (c : Checker) (now : Int)
    (req : List (hostnameHash P)) : (storeMissing P c now req).cacheTime = c.cacheTime := by
  unfold storeMissing
  induction req generalizing c with
  | nil => rfl
  | cons h t ih =>
    rw [List.foldl_cons, ih]
    cases hg : c.cache.Get (prefixOf h) <;> simp [setCache_cacheTime]

theorem storeMissing_cache (P : Params) (c : Checker) (now : Int)
    (req : List (hostnameHash P)) (k : List Byte) :
    (storeMissing P c now req).cache k =
      match c.cache k with
      | some v => some v
      | none =>
        if k ∈ req.map prefixOf then
          some (fromCacheItem P { expiry := now + c.cacheTime, hashes := [] })
        else none := by
  induction req generalizing c with
  | nil => cases hc : c.cache k <;> simp [storeMissing, hc]
  | cons h t ih =>
    have hstep : storeMissing P c now (h :: t) =
        storeMissing P (match c.cache.Get (prefixOf h) with
          | none => setCache P c now (prefixOf h) []
          | some _ => c) now t := rfl
    rw [hstep, ih]
    cases hg : c.cache.Get (prefixOf h) with
    | none =>
      simp only [setCache_cacheTime, setCache_cache]
      by_cases hk : k = prefixOf h
      · subst hk
        have : c.cache (prefixOf h) = none := hg
        simp [this]
      · simp only [if_neg hk, List.map_cons, List.mem_cons, hk, false_or, if_false]
    | some v =>
      simp only
      by_cases hk : k = prefixOf h
      · subst hk
        have : c.cache (prefixOf h) = some v := hg
        simp [this]
      · simp only [List.map_cons, List.mem_cons, hk, false_or]

theorem storeInCache_cacheTime (P : Params) (c : Checker) (now : Int)
    (req resp : List (hostnameHash P)) : (storeInCache P c now req resp).cacheTime = c.cacheTime := by
  unfold storeInCache
  rw [storeMissing_cacheTime, storeGroups_cacheTime]

/-- The store after one round, key by key. -/
theorem storeInCache_cache (P : Params) (c : Checker) (now : Int)
    (req resp : List (hostnameHash P)) (k : List Byte) :
    (storeInCache P c now req resp).cache k =
      if groupOf resp k = [] then
        match c.cache k with
        | some v => some v
        | none =>
          if k ∈ req.map prefixOf then
            some (fromCacheItem P { expiry := now + c.cacheTime, hashes := [] })
          else none
      else some (fromCacheItem P { expiry := now + c.cacheTime, hashes := groupOf resp k }) := by
  unfold storeInCache
  rw [storeMissing_cache, storeGroups_cacheTime,
    storeGroups_cache P c now _ (groupByPrefix_nodup P resp), groupByPrefix_get]
  by_cases hg : groupOf resp k = []
  · simp only [if_pos hg]
  · simp only [if_neg hg]

theorem mapGet_eq_some_iff {P : Params} (m : HashMap P) (hm : (m.map Prod.fst).Nodup)
    (k : List Byte) (v : List (hostnameHash P)) : mapGet m k = some v ↔ (k, v) ∈ m := by
  induction m with
  | nil => simp [mapGet]
  | cons e rest ih =>
    obtain ⟨k0, v0⟩ := e
    rw [List.map_cons, List.nodup_cons] at hm
    by_cases hk : k0 = k
    · subst hk
      simp only [mapGet, if_true, Option.some.injEq, List.mem_cons, Prod.mk.injEq, true_and]
      constructor
      · intro h; exact Or.inl h.symm
      · rintro (h | h)
        · exact h.symm
        · exact absurd (List.mem_map_of_mem Prod.fst h) hm.1
    · have hk' : ¬ k = k0 := fun e => hk e.symm
      simp only [mapGet, if_neg hk, List.mem_cons, Prod.mk.injEq, hk', false_and, false_or]
      exact ih hm.2

/-- The second loop of `storeInCache` writes the same store in whatever order it
visits the entries of the map. -/
theorem storeGroups_perm (P : Params) (c : Checker) (now : Int) (m m' : HashMap P)
    (hm : (m.map Prod.fst).Nodup) (hp : m'.Perm m) (k : List Byte) :
    (storeGroups P c now m').cache k = (storeGroups P c now m).cache k := by
  have hm' : (m'.map Prod.fst).Nodup := (hp.map Prod.fst).nodup_iff.mpr hm
  have hget : mapGet m' k = mapGet m k := by
    apply Option.ext
    intro v
    show mapGet m' k = some v ↔ mapGet m k = some v
    rw [mapGet_eq_some_iff m' hm', mapGet_eq_some_iff m hm]
    exact hp.mem_iff
  rw [storeGroups_cache P c now m' hm', storeGroups_cache P c now m hm, hget]

/-! ## Lemmas on stored records and on the lookup after a store round -/

theorem lookup_no_panic (P : Params) (c : Checker) (now : Int) (l : List (hostnameHash P))
    (hwf : ∀ g, g ∈ l → ∀ d, c.cache.Get (prefixOf g) = some d → toCacheItem P d ≠ none) :
    ∀ g, g ∈ l → fetch P c now g ≠ none :=
  fun g hg => (fetch_ne_none_iff P c now g).mpr (hwf g hg)

theorem hasValidRecord_eq_false_iff (P : Params) (c : Checker) (now : Int) (hash : hostnameHash P)
    (hwf : ∀ d, c.cache.Get (prefixOf hash) = some d → toCacheItem P d ≠ none) :
    hasValidRecord P c now hash = false ↔
      c.cache.Get (prefixOf hash) = none ∨
        ∃ data item, c.cache.Get (prefixOf hash) = some data ∧ toCacheItem P data = some item ∧
          item.expiry < now := by
  unfold hasValidRecord
  cases hg : c.cache.Get (prefixOf hash) with
  | none => simp
  | some data =>
    cases hd : toCacheItem P data with
    | none => exact absurd hd (hwf data hg)
    | some item => simp [hd]

theorem finish_eq {P : Params} (pend : List (hostnameHash P)) :
    finish pend = some (pend.isEmpty, false, pend) := by
  cases pend <;> simp [finish]

theorem storedExpiry_le (t : Int) : storedExpiry t ≤ t := by
  unfold storedExpiry timeUnix timeToUnix nanosPerSecond
  omega

theorem lt_storedExpiry_add (t : Int) : t < storedExpiry t + nanosPerSecond := by
  unfold storedExpiry timeUnix timeToUnix nanosPerSecond
  omega

theorem toCacheItem_fromCacheItem_inRange (P : Params) (r : cacheItem P)
    (hlo : -9223372036854775808 ≤ timeToUnix r.expiry)
    (hhi : timeToUnix r.expiry < 9223372036854775808) :
    toCacheItem P (fromCacheItem P r) =
      some { expiry := storedExpiry r.expiry,
             hashes := List.replicate (3 * r.hashes.length) (zeroHash P) ++ r.hashes } := by
  rw [toCacheItem_fromCacheItem, toInt64_toUint64 _ hlo hhi]
  rfl

theorem fetch_encoded (P : Params) (c : Checker) (now : Int) (h : hostnameHash P)
    (r : cacheItem P) (hget : c.cache.Get (prefixOf h) = some (fromCacheItem P r))
    (hlo : -9223372036854775808 ≤ timeToUnix r.expiry)
    (hhi : timeToUnix r.expiry < 9223372036854775808) :
    fetch P c now h =
      if storedExpiry r.expiry < now then some none
      else some (some { expiry := storedExpiry r.expiry,
                        hashes := List.replicate (3 * r.hashes.length) (zeroHash P) ++ r.hashes }) := by
  unfold fetch
  rw [hget]
  simp only [toCacheItem_fromCacheItem_inRange P r hlo hhi]

theorem hasValidRecord_encoded (P : Params) (c : Checker) (now : Int) (h : hostnameHash P)
    (r : cacheItem P) (hget : c.cache.Get (prefixOf h) = some (fromCacheItem P r))
    (hlo : -9223372036854775808 ≤ timeToUnix r.expiry)
    (hhi : timeToUnix r.expiry < 9223372036854775808) :
    hasValidRecord P c now h = !decide (storedExpiry r.expiry < now) := by
  unfold hasValidRecord
  rw [hget]
  simp only [toCacheItem_fromCacheItem_inRange P r hlo hhi]

theorem lookupFrom_blocked (P : Params) (c : Checker) (now : Int)
    (orig rest pend : List (hostnameHash P)) (f : Bool) (p : List (hostnameHash P))
    (hp : ∀ g, g ∈ pend → g ∈ orig) (hr : ∀ g, g ∈ rest → g ∈ orig)
    (hres : lookupFrom P c now orig rest pend = some (f, true, p)) :
    ∃ h, h ∈ rest ∧ ∃ item, fetch P c now h = some (some item) ∧
      ∃ g, g ∈ orig ∧ g ∈ item.hashes := by
  induction rest generalizing pend with
  | nil =>
    unfold lookupFrom at hres
    split at hres <;> simp at hres
  | cons h t ih =>
    have hr' : ∀ g, g ∈ t → g ∈ orig := fun g hg => hr g (List.mem_cons_of_mem _ hg)
    rw [lookupFrom] at hres
    cases hf : fetch P c now h with
    | none => rw [hf] at hres; simp at hres
    | some o =>
      rw [hf] at hres
      cases o with
      | none =>
        simp only at hres
        have hp' : ∀ g, g ∈ pend ++ [h] → g ∈ orig := by
          intro g hg
          rcases List.mem_append.mp hg with h1 | h1
          · exact hp g h1
          · rw [List.mem_singleton.mp h1]; exact hr h (List.mem_cons_self _ _)
        obtain ⟨x, hx, rest'⟩ := ih (pend ++ [h]) hp' hr' hres
        exact ⟨x, List.mem_cons_of_mem _ hx, rest'⟩
      | some item =>
        simp only at hres
        by_cases hm : findMatch (pend ++ orig.drop pend.length) item.hashes = true
        · obtain ⟨g, hg1, hg2⟩ := (findMatch_eq_true_iff _ _).mp hm
          exact ⟨h, List.mem_cons_self _ _, item, hf, g, mem_slice orig pend hp g hg1, hg2⟩
        · rw [if_neg hm] at hres
          obtain ⟨x, hx, rest'⟩ := ih pend hp hr' hres
          exact ⟨x, List.mem_cons_of_mem _ hx, rest'⟩

theorem findInCache_blocked (P : Params) (c : Checker) (now : Int)
    (hashes : List (hostnameHash P)) (f : Bool) (p : List (hostnameHash P))
    (hres : findInCache P c now hashes = some (f, true, p)) :
    ∃ h, h ∈ hashes ∧ ∃ item, fetch P c now h = some (some item) ∧
      ∃ g, g ∈ hashes ∧ g ∈ item.hashes := by
  rw [findInCache_eq] at hres
  exact lookupFrom_blocked P c now hashes hashes [] f p (by simp) (fun _ h => h) hres

theorem findInCache_singleton (P : Params) (c : Checker) (now : Int) (h : hostnameHash P) :
    findInCache P c now [h] =
      match fetch P c now h with
      | none => none
      | some none => some (false, false, [h])
      | some (some item) => some (true, findMatch [h] item.hashes, []) := by
  rw [findInCache_eq, lookupFrom]
  cases hf : fetch P c now h with
  | none => rfl
  | some o =>
    cases o with
    | none => simp [lookupFrom]
    | some item =>
      simp only [List.nil_append, List.length_nil, List.drop_zero]
      by_cases hm : findMatch [h] item.hashes = true
      · simp [hm]
      · simp only [Bool.not_eq_true] at hm
        simp [hm, lookupFrom]

theorem mem_groupOf {P : Params} (resp : List (hostnameHash P)) (k : List Byte)
    (g : hostnameHash P) : g ∈ groupOf resp k ↔ g ∈ resp ∧ prefixOf g = k := by
  simp [groupOf]

theorem mem_replicate_zero_append {P : Params} (n : Nat) (l : List (hostnameHash P))
    (g : hostnameHash P) (hg : g ∈ List.replicate n (zeroHash P) ++ l) :
    g = zeroHash P ∨ g ∈ l := by
  rcases List.mem_append.mp hg with h | h
  · exact Or.inl (List.eq_of_mem_replicate h)
  · exact Or.inr h

/-- What a lookup at `now'` fetches for `g` after one store round at `now` from an
empty store. -/
theorem fetch_after_store (P : Params) (ttl now now' : Int)
    (req resp : List (hostnameHash P)) (g : hostnameHash P)
    (hlo : -9223372036854775808 ≤ timeToUnix (now + ttl))
    (hhi : timeToUnix (now + ttl) < 9223372036854775808) :
    fetch P (storeInCache P { cache := Cache.empty, cacheTime := ttl } now req resp) now' g =
      if groupOf resp (prefixOf g) = [] ∧ prefixOf g ∉ req.map prefixOf then some none
      else if storedExpiry (now + ttl) < now' then some none
      else some (some { expiry := storedExpiry (now + ttl),
                        hashes := List.replicate (3 * (groupOf resp (prefixOf g)).length) (zeroHash P)
                          ++ groupOf resp (prefixOf g) }) := by
  have hc := storeInCache_cache P { cache := Cache.empty, cacheTime := ttl } now req resp (prefixOf g)
  simp only [Cache.empty] at hc
  by_cases hgr : groupOf resp (prefixOf g) = []
  · rw [if_pos hgr] at hc
    by_cases hreq : prefixOf g ∈ req.map prefixOf
    · rw [if_pos hreq] at hc
      have := fetch_encoded P _ now' g _ hc hlo hhi
      rw [this]
      simp [hgr, hreq]
    · rw [if_neg hreq] at hc
      rw [if_pos ⟨hgr, hreq⟩]
      unfold fetch
      rw [show (storeInCache P { cache := Cache.empty, cacheTime := ttl } now req resp).cache.Get
        (prefixOf g) = none from hc]
  · rw [if_neg hgr] at hc
    have := fetch_encoded P _ now' g _ hc hlo hhi
    rw [this]
    simp [hgr]

theorem findInCache_clean_of_fetch (P : Params) (c : Checker) (now : Int)
    (hashes : List (hostnameHash P))
    (hf : ∀ h, h ∈ hashes → ∃ item, fetch P c now h = some (some item) ∧
      ∀ g, g ∈ hashes → g ∉ item.hashes) :
    findInCache P c now hashes = some (true, false, []) := by
  rw [findInCache_eq, lookupFrom_no_match P c now hashes hashes [] (by simp) (fun _ h => h)]
  · have : hashes.filter (fun h => !hasValidRecord P c now h) = [] := by
      rw [List.filter_eq_nil_iff]
      intro g hg
      obtain ⟨item, h1, _⟩ := hf g hg
      simp [fetch_valid_hasValidRecord P c now g item h1]
    rw [List.nil_append, this]
    rfl
  · intro h hh
    obtain ⟨item, h1, _⟩ := hf h hh
    rw [h1]
    simp
  · intro h hh item hi
    obtain ⟨item', h1, h2⟩ := hf h hh
    rw [h1] at hi
    cases hi
    exact h2

theorem uint64Bytes_length (v : Nat) : (uint64Bytes v).length = 8 := rfl

theorem fromCacheItem_length (P : Params) (r : cacheItem P) :
    (fromCacheItem P r).length = 8 + 2 * r.hashes.length * P.hashSize := by
  rw [fromCacheItem_eq, List.length_append, uint64Bytes_length, hashBytes_length,
    List.length_append, List.length_replicate]
  ring

theorem fromCacheItem_drop (P : Params) (r : cacheItem P) :
    (fromCacheItem P r).drop expirySize =
      hashBytes (List.replicate r.hashes.length (zeroHash P) ++ r.hashes) := by
  rw [fromCacheItem_eq]
  exact List.drop_left' (uint64Bytes_length _)

theorem groupOf_eq_nil_iff {P : Params} (resp : List (hostnameHash P)) (k : List Byte) :
    groupOf resp k = [] ↔ ∀ g, g ∈ resp → prefixOf g ≠ k := by
  simp [groupOf, List.filter_eq_nil_iff]

theorem store_keeps_present (P : Params) (c : Checker) (now : Int)
    (req resp : List (hostnameHash P)) (k v : List Byte)
    (hg : groupOf resp k = []) (hv : c.cache k = some v) :
    (storeInCache P c now req resp).cache k = some v := by
  rw [storeInCache_cache, if_pos hg, hv]

theorem store_writes_negative (P : Params) (c : Checker) (now : Int)
    (req resp : List (hostnameHash P)) (h : hostnameHash P)
    (hreq : h ∈ req) (hg : groupOf resp (prefixOf h) = []) (hv : c.cache (prefixOf h) = none) :
    (storeInCache P c now req resp).cache (prefixOf h) =
      some (fromCacheItem P { expiry := now + c.cacheTime, hashes := [] }) := by
  rw [storeInCache_cache, if_pos hg, hv]
  simp only
  rw [if_pos (List.mem_map_of_mem _ hreq)]

theorem store_writes_positive (P : Params) (c : Checker) (now : Int)
    (req resp : List (hostnameHash P)) (k : List Byte) (hg : groupOf resp k ≠ []) :
    (storeInCache P c now req resp).cache k =
      some (fromCacheItem P { expiry := now + c.cacheTime, hashes := groupOf resp k }) := by
  rw [storeInCache_cache, if_neg hg]

theorem toCacheItem_short (P : Params) (data : List Byte) (h : data.length < 8) :
    toCacheItem P data = none := by
  unfold toCacheItem
  rw [(uint64Of_eq_none_iff data).mpr h]

theorem uint64Of_isSome (data : List Byte) (h : 8 ≤ data.length) : ∃ u, uint64Of data = some u := by
  cases hu : uint64Of data with
  | some u => exact ⟨u, rfl⟩
  | none =>
    have := (uint64Of_eq_none_iff data).mp hu
    omega

theorem decodeLoop_trailing (P : Params) (fuel : Nat) (rest : List Byte)
    (acc : List (hostnameHash P)) (h : rest.length % P.hashSize ≠ 0) :
    decodeLoop P fuel rest acc = none := by
  induction fuel generalizing rest acc with
  | zero =>
    have hne : rest ≠ [] := by
      intro he
      rw [he] at h
      simp at h
    simp [decodeLoop, hne]
  | succ f ih =>
    have hne : rest ≠ [] := by
      intro he
      rw [he] at h
      simp at h
    rw [decodeLoop, if_neg hne]
    by_cases hle : P.hashSize ≤ rest.length
    · rw [dif_pos hle]
      apply ih
      rw [List.length_drop]
      intro h0
      apply h
      have h1 : rest.length = (rest.length - P.hashSize) + P.hashSize := by omega
      rw [h1, Nat.add_mod_right]
      exact h0
    · rw [dif_neg hle]

theorem exists_hashBytes (P : Params) (m : Nat) (data : List Byte)
    (h : data.length = m * P.hashSize) :
    ∃ l : List (hostnameHash P), l.length = m ∧ hashBytes l = data := by
  induction m generalizing data with
  | zero =>
    refine ⟨[], rfl, ?_⟩
    have : data.length = 0 := by simpa using h
    rw [List.length_eq_zero.mp this]
    rfl
  | succ m ih =>
    have hlen : P.hashSize ≤ data.length := by
      rw [h, Nat.succ_mul]
      omega
    have hdrop : (data.drop P.hashSize).length = m * P.hashSize := by
      rw [List.length_drop, h, Nat.succ_mul]
      omega
    obtain ⟨t, ht1, ht2⟩ := ih (data.drop P.hashSize) hdrop
    refine ⟨⟨data.take P.hashSize, by simp [List.length_take, hlen]⟩ :: t, by simp [ht1], ?_⟩
    rw [hashBytes_cons, ht2]
    exact List.take_append_drop _ _

theorem hashBytes_chunk {P : Params} (l : List (hostnameHash P)) (k : Nat) (hk : k < l.length) :
    ((hashBytes l).drop (k * P.hashSize)).take P.hashSize = (l.get ⟨k, hk⟩).val := by
  induction l generalizing k with
  | nil => simp at hk
  | cons h t ih =>
    cases k with
    | zero =>
      rw [Nat.zero_mul, List.drop_zero, hashBytes_cons]
      exact List.take_left' h.property
    | succ k =>
      have hk' : k < t.length := by simpa using hk
      have hd : (hashBytes (h :: t)).drop ((k + 1) * P.hashSize)
          = (hashBytes t).drop (k * P.hashSize) := by
        rw [hashBytes_cons, Nat.succ_mul, Nat.add_comm, ← List.drop_drop,
          List.drop_left' h.property]
      rw [hd, ih k hk']
      rfl

theorem toCacheItem_of_chunks (P : Params) (data : List Byte) (u : Nat)
    (l : List (hostnameHash P)) (hu : uint64Of data = some u)
    (hl : data.drop expirySize = hashBytes l) :
    toCacheItem P data =
      some { expiry := timeUnix (toInt64 u),
             hashes := List.replicate l.length (zeroHash P) ++ l } := by
  have hdiv : (hashBytes l).length / P.hashSize = l.length := by
    rw [hashBytes_length]
    exact Nat.mul_div_cancel _ P.hashSize_pos
  have hfuel : l.length ≤ (hashBytes l).length := by
    rw [hashBytes_length]
    exact Nat.le_mul_of_pos_right _ P.hashSize_pos
  unfold toCacheItem
  rw [hu]
  simp only [hl, hdiv, decodeLoop_hashBytes l _ _ hfuel]

theorem toCacheItem_trailing (P : Params) (data : List Byte)
    (h : (data.length - 8) % P.hashSize ≠ 0) : toCacheItem P data = none := by
  unfold toCacheItem
  cases hu : uint64Of data with
  | none => rfl
  | some u =>
    have hd : (data.drop expirySize).length % P.hashSize ≠ 0 := by
      rw [List.length_drop]
      exact h
    simp only [decodeLoop_trailing P _ _ _ hd]

theorem timeToUnix_timeUnix (s : Int) : timeToUnix (timeUnix s) = s := by
  unfold timeToUnix timeUnix nanosPerSecond
  omega

theorem lookupFrom_skip (P : Params) (c : Checker) (now : Int)
    (orig l₁ tail pend : List (hostnameHash P))
    (hp : ∀ g, g ∈ pend → g ∈ orig) (hr : ∀ g, g ∈ l₁ → g ∈ orig)
    (hwf : ∀ h, h ∈ l₁ → fetch P c now h ≠ none)
    (hno : ∀ h, h ∈ l₁ → ∀ item, fetch P c now h = some (some item) →
      ∀ g, g ∈ orig → g ∉ item.hashes) :
    lookupFrom P c now orig (l₁ ++ tail) pend =
      lookupFrom P c now orig tail (pend ++ l₁.filter (fun h => !hasValidRecord P c now h)) := by
  induction l₁ generalizing pend with
  | nil => simp
  | cons h t ih =>
    have hwf' : ∀ g, g ∈ t → fetch P c now g ≠ none := fun g hg => hwf g (List.mem_cons_of_mem _ hg)
    have hno' : ∀ g, g ∈ t → ∀ item, fetch P c now g = some (some item) →
        ∀ g, g ∈ orig → g ∉ item.hashes := fun g hg => hno g (List.mem_cons_of_mem _ hg)
    have hr' : ∀ g, g ∈ t → g ∈ orig := fun g hg => hr g (List.mem_cons_of_mem _ hg)
    rw [List.cons_append, lookupFrom]
    cases hf : fetch P c now h with
    | none => exact absurd hf (hwf h (List.mem_cons_self _ _))
    | some o =>
      cases o with
      | none =>
        have hv : hasValidRecord P c now h = false := ((fetch_miss_iff P c now h).mp hf).2
        simp only
        rw [ih (pend ++ [h]) _ hr' hwf' hno']
        · simp [List.filter_cons, hv]
        · intro g hg
          rcases List.mem_append.mp hg with h1 | h1
          · exact hp g h1
          · rw [List.mem_singleton.mp h1]; exact hr h (List.mem_cons_self _ _)
      | some item =>
        have hv : hasValidRecord P c now h = true := fetch_valid_hasValidRecord P c now h item hf
        have hm : findMatch (pend ++ orig.drop pend.length) item.hashes = false := by
          rw [findMatch_eq_false_iff]
          intro g hg
          exact hno h (List.mem_cons_self _ _) item hf g (mem_slice orig pend hp g hg)
        simp only [hm]
        rw [ih pend hp hr' hwf' hno']
        simp [List.filter_cons, hv]

theorem lookupFrom_panic_or_blocked (P : Params) (c : Checker) (now : Int)
    (orig rest pend : List (hostnameHash P)) (h : hostnameHash P) (hmem : h ∈ rest)
    (hf : fetch P c now h = none) :
    lookupFrom P c now orig rest pend = none ∨
      lookupFrom P c now orig rest pend = some (true, true, []) := by
  induction rest generalizing pend with
  | nil => simp at hmem
  | cons g t ih =>
    rw [lookupFrom]
    cases hg : fetch P c now g with
    | none => exact Or.inl rfl
    | some o =>
      have hne : g ≠ h := by
        intro e
        rw [e, hf] at hg
        simp at hg
      have hmem' : h ∈ t := by
        rcases List.mem_cons.mp hmem with h1 | h1
        · exact absurd h1.symm hne
        · exact h1
      cases o with
      | none => exact ih (pend ++ [g]) hmem'
      | some item =>
        simp only
        by_cases hm : findMatch (pend ++ orig.drop pend.length) item.hashes = true
        · rw [if_pos hm]; exact Or.inr rfl
        · rw [if_neg hm]; exact ih pend hmem'

theorem fetch_short (P : Params) (c : Checker) (now : Int) (h : hostnameHash P)
    (data : List Byte) (hget : c.cache.Get (prefixOf h) = some data) (hshort : data.length < 8) :
    fetch P c now h = none := by
  unfold fetch
  rw [hget]
  simp only [toCacheItem_short P data hshort]

theorem lookupFrom_total (P : Params) (c : Checker) (now : Int)
    (orig rest pend : List (hostnameHash P)) (hwf : ∀ h, h ∈ rest → fetch P c now h ≠ none) :
    ∃ r, lookupFrom P c now orig rest pend = some r := by
  induction rest generalizing pend with
  | nil =>
    unfold lookupFrom
    split <;> exact ⟨_, rfl⟩
  | cons g t ih =>
    have hwf' : ∀ x, x ∈ t → fetch P c now x ≠ none := fun x hx => hwf x (List.mem_cons_of_mem _ hx)
    rw [lookupFrom]
    cases hg : fetch P c now g with
    | none => exact absurd hg (hwf g (List.mem_cons_self _ _))
    | some o =>
      cases o with
      | none => exact ih (pend ++ [g]) hwf'
      | some item =>
        simp only
        split
        · exact ⟨_, rfl⟩
        · exact ih pend hwf'

theorem lookupFrom_shape (P : Params) (c : Checker) (now : Int)
    (orig rest pend : List (hostnameHash P)) (f b : Bool) (p : List (hostnameHash P))
    (hres : lookupFrom P c now orig rest pend = some (f, b, p)) :
    (f = true ↔ p = []) ∧ (b = true → f = true) := by
  induction rest generalizing pend with
  | nil =>
    unfold lookupFrom at hres
    split at hres
    · simp only [Option.some.injEq, Prod.mk.injEq] at hres
      obtain ⟨h1, h2, h3⟩ := hres
      subst h1 h2 h3
      simp
    · rename_i hlen
      simp only [Option.some.injEq, Prod.mk.injEq] at hres
      obtain ⟨h1, h2, h3⟩ := hres
      subst h1 h2 h3
      have : pend ≠ [] := fun e => hlen (by rw [e]; rfl)
      simp [this]
  | cons g t ih =>
    rw [lookupFrom] at hres
    cases hg : fetch P c now g with
    | none => rw [hg] at hres; simp at hres
    | some o =>
      rw [hg] at hres
      cases o with
      | none => exact ih (pend ++ [g]) hres
      | some item =>
        simp only at hres
        split at hres
        · simp only [Option.some.injEq, Prod.mk.injEq] at hres
          obtain ⟨h1, h2, h3⟩ := hres
          subst h1 h2 h3
          simp
        · exact ih pend hres

theorem timeUnixWrapped_eq (sec : Int) (hlo : -9223372036854775808 ≤ sec)
    (hhi : sec + unixToInternal < 9223372036854775808) : timeUnixWrapped sec = timeUnix sec := by
  have hoff : unixToInternal = 62135596800 := rfl
  unfold timeUnixWrapped
  rw [toInt64_toUint64 _ (by omega) hhi]
  unfold timeUnix
  ring

theorem toInt64_ge (u : Nat) : -9223372036854775808 ≤ toInt64 u := by
  unfold toInt64
  have := Nat.mod_lt u (show 0 < 18446744073709551616 by decide)
  split <;> omega

/-- Below the wrap point the expiry that the model decodes is the instant that Go
builds from the stored seconds. -/
theorem toCacheItem_expiry_faithful (P : Params) (data : List Byte) (item : cacheItem P)
    (hdec : toCacheItem P data = some item)
    (hrange : timeToUnix item.expiry + unixToInternal < 9223372036854775808) :
    ∃ u, uint64Of data = some u ∧ item.expiry = timeUnixWrapped (toInt64 u) := by
  unfold toCacheItem at hdec
  cases hu : uint64Of data with
  | none => rw [hu] at hdec; simp at hdec
  | some u =>
    rw [hu] at hdec
    simp only at hdec
    cases hl : decodeLoop P (data.drop expirySize).length (data.drop expirySize)
        (List.replicate ((data.drop expirySize).length / P.hashSize) (zeroHash P)) with
    | none => rw [hl] at hdec; simp at hdec
    | some hs =>
      rw [hl] at hdec
      simp only [Option.some.injEq] at hdec
      subst hdec
      simp only [timeToUnix_timeUnix] at hrange
      exact ⟨u, rfl, (timeUnixWrapped_eq _ (toInt64_ge u) hrange).symm⟩

/-- Past the wrap point the model and Go part: the stored seconds `2^63 - 1` are an
instant far in the future for `timeUnix` and an instant before year 1 for Go. -/
theorem timeUnixWrapped_max :
    timeUnixWrapped 9223372036854775807 < 0 ∧ 0 < timeUnix 9223372036854775807 := by
  decide

/-! ## Claims -/

/-- C1 (code defect): a record with at least one hash does not survive the round
trip; `toCacheItem (fromCacheItem r)` returns four times as many hashes as `r`
has, three zero hashes for each original one followed by the hashes of `r`. -/
theorem roundTrip_padded (P : Params) (r : cacheItem P) (hne : r.hashes ≠ []) :
    toCacheItem P (fromCacheItem P r) ≠ some r ∧
      ∃ item, toCacheItem P (fromCacheItem P r) = some item ∧
        item.hashes = List.replicate (3 * r.hashes.length) (zeroHash P) ++ r.hashes ∧
        item.hashes.length = 4 * r.hashes.length := by
  have hlen : 0 < r.hashes.length := List.length_pos.mpr hne
  rw [toCacheItem_fromCacheItem]
  refine ⟨?_, _, rfl, rfl, ?_⟩
  · intro h
    have h2 := congrArg (fun o => (o.map (fun i => i.hashes.length))) h
    simp only [Option.map_some', List.length_append, List.length_replicate, Option.some.injEq] at h2
    omega
  · simp only [List.length_append, List.length_replicate]
    omega

/-- C1, evaluated: the record that expires at second 5 and holds `hashAB` comes
back with the hashes `[0, 0, 0, hashAB]`. -/
theorem roundTrip_padded_witness :
    ({ expiry := 5000000000, hashes := [hashAB] } : cacheItem smallParams).hashes ≠ [] ∧
    toCacheItem smallParams (fromCacheItem smallParams { expiry := 5000000000, hashes := [hashAB] })
      = some { expiry := 5000000000,
               hashes := [zeroHash smallParams, zeroHash smallParams, zeroHash smallParams, hashAB] } ∧
    toCacheItem smallParams (fromCacheItem smallParams { expiry := 5000000000, hashes := [hashAB] })
      ≠ some { expiry := 5000000000, hashes := [hashAB] } :=
  ⟨by decide, by decide,
    (roundTrip_padded smallParams { expiry := 5000000000, hashes := [hashAB] } (by decide)).1⟩

/-- C2 as stated fails: `hashAB` has a valid record of its own that lists it, and
the lookup of `[hashCD, hashAB]` panics on the three-byte value stored under the
key of `hashCD`. -/
theorem lookup_own_record_counterexample :
    hashAB ∈ [hashCD, hashAB] ∧
    brokenChecker.cache.Get (prefixOf hashAB) = some [0, 0, 0, 0, 0, 0, 0, 9, 0x61, 0x62, 1, 1] ∧
    toCacheItem smallParams [0, 0, 0, 0, 0, 0, 0, 9, 0x61, 0x62, 1, 1]
      = some { expiry := 9000000000, hashes := [zeroHash smallParams, hashAB] } ∧
    ¬ (9000000000 : Int) < 0 ∧
    hashAB ∈ [zeroHash smallParams, hashAB] ∧
    findInCache smallParams brokenChecker 0 [hashCD, hashAB] = none := by
  decide

/-- C2 (amended): if a candidate `h` has under its own key a record that decodes,
has not expired and lists `h`, with stored seconds below the point where
`time.Unix` wraps, and every value stored under the key of a candidate before
`h` decodes, then `findInCache` returns `(true, true, [])`, wherever `h` stands
in the batch and whatever is stored for the candidates after it. -/
theorem lookup_own_record_blocked (P : Params) (c : Checker) (now : Int)
    (l₁ l₂ : List (hostnameHash P)) (h : hostnameHash P) (data : List Byte) (item : cacheItem P)
    (hget : c.cache.Get (prefixOf h) = some data) (hdec : toCacheItem P data = some item)
    (_hrange : timeToUnix item.expiry + unixToInternal < 9223372036854775808)
    (hvalid : ¬ item.expiry < now) (hin : h ∈ item.hashes)
    (hwf : ∀ g, g ∈ l₁ → ∀ d, c.cache.Get (prefixOf g) = some d → toCacheItem P d ≠ none) :
    findInCache P c now (l₁ ++ h :: l₂) = some (true, true, []) := by
  rw [findInCache_eq]
  have hf : fetch P c now h = some (some item) :=
    (fetch_valid_iff P c now h item).mpr ⟨data, hget, hdec, hvalid⟩
  exact lookupFrom_match P c now _ [] l₁ l₂ [] h item rfl (by simp)
    (lookup_no_panic P c now l₁ hwf) hf hin

/-- C2 (amended), evaluated: `hashAB` stands last, after a candidate with nothing
stored under its key. -/
theorem lookup_own_record_blocked_witness :
    findInCache smallParams
      { cache := Cache.empty.Set [0x61, 0x62] [0, 0, 0, 0, 0, 0, 0, 9, 0x61, 0x62, 1, 1],
        cacheTime := 1000000000 } 0 ([hashCD] ++ hashAB :: []) = some (true, true, []) :=
  lookup_own_record_blocked smallParams _ 0 [hashCD] [] hashAB
    [0, 0, 0, 0, 0, 0, 0, 9, 0x61, 0x62, 1, 1]
    { expiry := 9000000000, hashes := [zeroHash smallParams, hashAB] }
    (by decide) (by decide) (by decide) (by decide) (by decide) (by decide)

/-- C3 as stated fails twice.  The zero hash was requested and is not confirmed,
yet it is reported blocked on the padding of the record written for the
confirmed `hashZ1` with the same key; and a requested, unconfirmed hash looked
up 1.2 s into a round stored at 0.5 s with a TTL of one second is returned as
pending. -/
theorem no_false_positive_counterexample :
    ((∀ h, h ∈ [zeroHash smallParams] → h ∈ [zeroHash smallParams]) ∧
      (∀ h, h ∈ [zeroHash smallParams] → h ∉ [hashZ1]) ∧
      (0 : Int) < 0 + emptyChecker.cacheTime ∧
      findInCache smallParams
        (storeInCache smallParams emptyChecker 0 [zeroHash smallParams] [hashZ1]) 0
        [zeroHash smallParams] = some (true, true, [])) ∧
    ((∀ h, h ∈ [hashCD] → h ∈ [hashCD]) ∧ (∀ h, h ∈ [hashCD] → h ∉ ([] : List (hostnameHash smallParams))) ∧
      (1200000000 : Int) < 500000000 + emptyChecker.cacheTime ∧
      findInCache smallParams (storeInCache smallParams emptyChecker 500000000 [hashCD] [])
        1200000000 [hashCD] = some (false, false, [hashCD])) :=
  ⟨⟨by decide, by decide, by decide, by decide⟩, by decide, by decide, by decide, by decide⟩

/-- C3 (amended): after one store round at `now` from an empty store, a lookup made
no later than the stored expiry (`now + TTL` rounded down to a whole second) of
candidates that were all requested, of which none is confirmed and none is the
zero hash, returns `(true, false, [])`; and a lookup, at any instant, of any
batch without the zero hash returns `blocked = true` only when some candidate
is a confirmed hash. -/
theorem no_false_positive (P : Params) (ttl now now' : Int)
    (requested confirmed candidates : List (hostnameHash P))
    (hlo : -9223372036854775808 ≤ timeToUnix (now + ttl))
    (hhi : timeToUnix (now + ttl) < 9223372036854775808)
    (hsub : ∀ h, h ∈ candidates → h ∈ requested)
    (hnot : ∀ h, h ∈ candidates → h ∉ confirmed)
    (hzero : zeroHash P ∉ candidates)
    (htime : now' ≤ storedExpiry (now + ttl)) :
    findInCache P (storeInCache P { cache := Cache.empty, cacheTime := ttl } now requested confirmed)
        now' candidates = some (true, false, []) ∧
      ∀ (batch : List (hostnameHash P)) (t : Int) (f : Bool) (p : List (hostnameHash P)),
        zeroHash P ∉ batch →
        findInCache P
          (storeInCache P { cache := Cache.empty, cacheTime := ttl } now requested confirmed)
          t batch = some (f, true, p) →
        ∃ g, g ∈ batch ∧ g ∈ confirmed := by
  constructor
  · apply findInCache_clean_of_fetch
    intro h hh
    have hreq : prefixOf h ∈ requested.map prefixOf := List.mem_map_of_mem _ (hsub h hh)
    rw [fetch_after_store P ttl now now' requested confirmed h hlo hhi,
      if_neg (by simp only [not_and, not_not]; exact fun _ => hreq), if_neg (not_lt.mpr htime)]
    refine ⟨_, rfl, ?_⟩
    intro g hg hmem
    rcases mem_replicate_zero_append _ _ g hmem with h0 | h1
    · exact hzero (h0 ▸ hg)
    · exact hnot g hg ((mem_groupOf _ _ g).mp h1).1
  · intro batch t f p hz hres
    obtain ⟨h, _, item, hf, g, hg, hmem⟩ := findInCache_blocked P _ t batch f p hres
    rw [fetch_after_store P ttl now t requested confirmed h hlo hhi] at hf
    split at hf
    · simp at hf
    · split at hf
      · simp at hf
      · simp only [Option.some.injEq] at hf
        subst hf
        rcases mem_replicate_zero_append _ _ g hmem with h0 | h1
        · exact absurd (h0 ▸ hg) hz
        · exact ⟨g, hg, ((mem_groupOf _ _ g).mp h1).1⟩

/-- C3 (amended), evaluated on the example of the spec: after
`Store([hashAB, hashCD], [hashAB])` the lookup of `[hashCD]` is clean. -/
theorem no_false_positive_witness :
    findInCache smallParams
      (storeInCache smallParams { cache := Cache.empty, cacheTime := 1000000000 } 500000000
        [hashAB, hashCD] [hashAB]) 1000000000 [hashCD] = some (true, false, []) :=
  (no_false_positive smallParams 1000000000 500000000 1000000000 [hashAB, hashCD] [hashAB]
    [hashCD] (by decide) (by decide) (by decide) (by decide) (by decide) (by decide)).1

/-- C4 as stated fails: after `Store([hashAB, hashCD], [hashAB])` at 0.5 s with a TTL
of one second, the lookup of `[hashAB, hashCD]` at 1.2 s, before the TTL has
elapsed, returns both hashes as pending. -/
theorem verified_hit_counterexample :
    hashAB ∈ [hashAB, hashCD] ∧ hashAB ∈ [hashAB] ∧
    (1200000000 : Int) < 500000000 + emptyChecker.cacheTime ∧
    findInCache smallParams
      (storeInCache smallParams emptyChecker 500000000 [hashAB, hashCD] [hashAB]) 1200000000
      [hashAB, hashCD] = some (false, false, [hashAB, hashCD]) :=
  ⟨by decide, by decide, by decide, by decide⟩

/-- C4 (amended): after one store round at `now` from an empty store, a lookup made
no later than the stored expiry (`now + TTL` rounded down to a whole second) of
a batch that contains a confirmed hash returns `(true, true, [])`. -/
theorem verified_hit (P : Params) (ttl now now' : Int)
    (requested confirmed candidates : List (hostnameHash P)) (h : hostnameHash P)
    (hlo : -9223372036854775808 ≤ timeToUnix (now + ttl))
    (hhi : timeToUnix (now + ttl) < 9223372036854775808)
    (hcand : h ∈ candidates) (hconf : h ∈ confirmed)
    (htime : now' ≤ storedExpiry (now + ttl)) :
    findInCache P (storeInCache P { cache := Cache.empty, cacheTime := ttl } now requested confirmed)
      now' candidates = some (true, true, []) := by
  obtain ⟨l₁, l₂, hl⟩ := List.append_of_mem hcand
  have hgr : h ∈ groupOf confirmed (prefixOf h) := (mem_groupOf _ _ h).mpr ⟨hconf, rfl⟩
  have hne : groupOf confirmed (prefixOf h) ≠ [] := List.ne_nil_of_mem hgr
  have hf := fetch_after_store P ttl now now' requested confirmed h hlo hhi
  rw [if_neg (by simp [hne]), if_neg (not_lt.mpr htime)] at hf
  rw [hl, findInCache_eq]
  refine lookupFrom_match P _ now' _ [] l₁ l₂ [] h _ rfl (by simp) ?_ hf
    (List.mem_append_right _ hgr)
  intro g _
  rw [fetch_after_store P ttl now now' requested confirmed g hlo hhi]
  split
  · simp
  · split <;> simp

/-- C4 (amended), evaluated on the example of the spec: after
`Store([hashAB, hashCD], [hashAB])` the lookup of `[hashAB, hashCD]` is blocked. -/
theorem verified_hit_witness :
    findInCache smallParams
      (storeInCache smallParams { cache := Cache.empty, cacheTime := 1000000000 } 500000000
        [hashAB, hashCD] [hashAB]) 1000000000 [hashAB, hashCD] = some (true, true, []) :=
  verified_hit smallParams 1000000000 500000000 1000000000 [hashAB, hashCD] [hashAB]
    [hashAB, hashCD] hashAB (by decide) (by decide) (by decide) (by decide) (by decide)

/-- C5 as stated fails: the only candidate has no valid record (a three-byte value
is stored under its key), and the lookup panics instead of returning it as
pending. -/
theorem lookup_pending_counterexample :
    (∀ h, h ∈ [hashCD] → ∀ data, brokenChecker.cache.Get (prefixOf h) = some data →
      ∀ item, toCacheItem smallParams data = some item → ¬ item.expiry < 0 →
        ∀ g, g ∈ [hashCD] → g ∉ item.hashes) ∧
    hasValidRecord smallParams brokenChecker 0 hashCD = false ∧
    findInCache smallParams brokenChecker 0 [hashCD] = none := by
  decide

/-- C5 (amended): when every value stored under the key of a candidate decodes,
every such record that has not expired has its stored seconds below the point
where `time.Unix` wraps, and no valid record fetched for a candidate lists a
candidate, `findInCache` returns as pending exactly the candidates without a
valid record, in input order and unchanged, with `found` true exactly when that
list is empty and `blocked` false; when exactly one candidate has no valid
record the result is `(false, false, [that candidate])`. -/
theorem lookup_pending (P : Params) (c : Checker) (now : Int) (hashes : List (hostnameHash P))
    (hwf : ∀ g, g ∈ hashes → ∀ d, c.cache.Get (prefixOf g) = some d → toCacheItem P d ≠ none)
    (_hrange : ∀ g, g ∈ hashes → ∀ d, c.cache.Get (prefixOf g) = some d →
      ∀ item, toCacheItem P d = some item → ¬ item.expiry < now →
        timeToUnix item.expiry + unixToInternal < 9223372036854775808)
    (hno : ∀ h, h ∈ hashes → ∀ data, c.cache.Get (prefixOf h) = some data →
      ∀ item, toCacheItem P data = some item → ¬ item.expiry < now →
        ∀ g, g ∈ hashes → g ∉ item.hashes) :
    findInCache P c now hashes =
        some ((hashes.filter (fun h => !hasValidRecord P c now h)).isEmpty, false,
          hashes.filter (fun h => !hasValidRecord P c now h)) ∧
      ∀ l₁ h l₂, hashes = l₁ ++ h :: l₂ → hasValidRecord P c now h = false →
        (∀ g, g ∈ l₁ ++ l₂ → hasValidRecord P c now g = true) →
        findInCache P c now hashes = some (false, false, [h]) := by
  have hmain : findInCache P c now hashes =
      some ((hashes.filter (fun h => !hasValidRecord P c now h)).isEmpty, false,
        hashes.filter (fun h => !hasValidRecord P c now h)) := by
    rw [findInCache_eq, lookupFrom_no_match P c now hashes hashes [] (by simp) (fun _ h => h)
      (lookup_no_panic P c now hashes hwf), finish_eq]
    · simp
    · intro h hh item hf g hg
      obtain ⟨data, h1, h2, h3⟩ := (fetch_valid_iff P c now h item).mp hf
      exact hno h hh data h1 item h2 h3 g hg
  refine ⟨hmain, ?_⟩
  intro l₁ h l₂ hl hh hrest
  have hfilter : hashes.filter (fun h => !hasValidRecord P c now h) = [h] := by
    rw [hl, List.filter_append, List.filter_cons]
    have h1 : l₁.filter (fun h => !hasValidRecord P c now h) = [] := by
      rw [List.filter_eq_nil_iff]
      intro g hg
      simp [hrest g (List.mem_append_left _ hg)]
    have h2 : l₂.filter (fun h => !hasValidRecord P c now h) = [] := by
      rw [List.filter_eq_nil_iff]
      intro g hg
      simp [hrest g (List.mem_append_right _ hg)]
    simp [h1, h2, hh]
  rw [hmain, hfilter]
  rfl

/-- C5 (amended), evaluated: of `[hashAB, hashCD, hashZ1]` only `hashZ1` has no
record in a store with empty records under `"ab"` and `"cd"`. -/
theorem lookup_pending_witness :
    findInCache smallParams negativeChecker 0 [hashAB, hashCD, hashZ1] =
      some (false, false, [hashZ1]) :=
  (lookup_pending smallParams negativeChecker 0 [hashAB, hashCD, hashZ1]
    (by decide) (by decide) (by decide)).2 [hashAB, hashCD] hashZ1 [] rfl (by decide) (by decide)

/-- C6 as stated fails on both sides.  A record written at second 1 with a TTL of
one second is still valid at second 2, the instant `now + d` (first part); a
record written at 0.5 s with the same TTL is already treated as absent at 1.2 s,
before `now + d` = 1.5 s (second part). -/
theorem expiry_boundary_counterexample :
    (1000000000 + emptyChecker.cacheTime ≤ (2000000000 : Int) ∧
      findInCache smallParams (setCache smallParams emptyChecker 1000000000 (prefixOf hashAB) [])
        2000000000 [hashAB] = some (true, false, [])) ∧
    ((1200000000 : Int) < 500000000 + emptyChecker.cacheTime ∧
      findInCache smallParams (setCache smallParams emptyChecker 500000000 (prefixOf hashAB) [])
        1200000000 [hashAB] = some (false, false, [hashAB])) :=
  ⟨⟨by decide, by decide⟩, by decide, by decide⟩

/-- C6 (amended): a record written by `setCache` at `now` with TTL `d` is read back
with the expiry `now + d` rounded down to a whole second.  `findInCache` treats
it as valid at every instant up to and including that stored expiry, and as
absent (the candidate goes to pending) at every later instant. -/
theorem expiry_boundary (P : Params) (c : Checker) (now now' : Int) (h : hostnameHash P)
    (hs : List (hostnameHash P))
    (hlo : -9223372036854775808 ≤ timeToUnix (now + c.cacheTime))
    (hhi : timeToUnix (now + c.cacheTime) < 9223372036854775808) :
    (storedExpiry (now + c.cacheTime) ≤ now + c.cacheTime ∧
      now + c.cacheTime < storedExpiry (now + c.cacheTime) + nanosPerSecond) ∧
    (now' ≤ storedExpiry (now + c.cacheTime) →
      hasValidRecord P (setCache P c now (prefixOf h) hs) now' h = true ∧
      ∃ b, findInCache P (setCache P c now (prefixOf h) hs) now' [h] = some (true, b, [])) ∧
    (storedExpiry (now + c.cacheTime) < now' →
      hasValidRecord P (setCache P c now (prefixOf h) hs) now' h = false ∧
      findInCache P (setCache P c now (prefixOf h) hs) now' [h] = some (false, false, [h])) := by
  have hget : (setCache P c now (prefixOf h) hs).cache.Get (prefixOf h) =
      some (fromCacheItem P { expiry := now + c.cacheTime, hashes := hs }) := by
    show (setCache P c now (prefixOf h) hs).cache (prefixOf h) = _
    rw [setCache_cache, if_pos rfl]
  have hf := fetch_encoded P _ now' h _ hget hlo hhi
  have hv := hasValidRecord_encoded P _ now' h _ hget hlo hhi
  refine ⟨⟨storedExpiry_le _, lt_storedExpiry_add _⟩, ?_, ?_⟩
  · intro hle
    have hn : ¬ storedExpiry (now + c.cacheTime) < now' := not_lt.mpr hle
    rw [if_neg hn] at hf
    refine ⟨by rw [hv]; simp [hn], ?_⟩
    rw [findInCache_singleton, hf]
    exact ⟨_, rfl⟩
  · intro hlt
    rw [if_pos hlt] at hf
    refine ⟨by rw [hv]; simp [hlt], ?_⟩
    rw [findInCache_singleton, hf]

/-- C6 (amended), evaluated: written at 0.5 s with a TTL of one second, the record
is valid at second 1 and absent one nanosecond later. -/
theorem expiry_boundary_witness :
    findInCache smallParams (setCache smallParams emptyChecker 500000000 (prefixOf hashAB) [])
        1000000000 [hashAB] = some (true, false, []) ∧
    findInCache smallParams (setCache smallParams emptyChecker 500000000 (prefixOf hashAB) [])
        1000000001 [hashAB] = some (false, false, [hashAB]) := by
  have h := expiry_boundary smallParams emptyChecker 500000000 1000000001 hashAB []
    (by decide) (by decide)
  exact ⟨by decide, (h.2.2 (by decide)).2⟩

/-- C7: when every candidate has under its key a record that decodes, has its
stored seconds below the point where `time.Unix` wraps and has not expired, and
no hash of such a record equals a candidate, `findInCache` returns
`(true, false, [])`. -/
theorem lookup_all_clean (P : Params) (c : Checker) (now : Int) (hashes : List (hostnameHash P))
    (hall : ∀ h, h ∈ hashes → ∃ data item, c.cache.Get (prefixOf h) = some data ∧
      toCacheItem P data = some item ∧
      timeToUnix item.expiry + unixToInternal < 9223372036854775808 ∧
      ¬ item.expiry < now ∧ ∀ g, g ∈ hashes → g ∉ item.hashes) :
    findInCache P c now hashes = some (true, false, []) := by
  apply findInCache_clean_of_fetch
  intro h hh
  obtain ⟨data, item, h1, h2, _, h3, h4⟩ := hall h hh
  exact ⟨item, (fetch_valid_iff P c now h item).mpr ⟨data, h1, h2, h3⟩, h4⟩

/-- C7, evaluated at the instant of the expiry: the record of `hashAB` lists another
hash with the same key, `hashAB2`, the record of `hashCD` is empty, and neither
has expired. -/
theorem lookup_all_clean_witness :
    findInCache smallParams listedChecker 9000000000 [hashAB, hashCD] = some (true, false, []) :=
  lookup_all_clean smallParams listedChecker 9000000000 [hashAB, hashCD] (by
    intro h hh
    rcases List.mem_cons.mp hh with h1 | h1
    · subst h1
      exact ⟨[0, 0, 0, 0, 0, 0, 0, 9, 0x61, 0x62, 3, 3],
        { expiry := 9000000000, hashes := [zeroHash smallParams, hashAB2] },
        by decide, by decide, by decide, by decide, by decide⟩
    · rw [List.mem_singleton.mp h1]
      exact ⟨[0, 0, 0, 0, 0, 0, 0, 9], { expiry := 9000000000, hashes := [] },
        by decide, by decide, by decide, by decide, by decide⟩)

/-- C8 as stated fails: the key of the requested `hashCD` holds an empty record
that expired at second 1, so it has no valid record at second 10, and no hash
is confirmed; after `Store([hashCD], [])` at second 10 with a TTL of one second
the store still holds the expired record, not the empty record with expiry
`now + TTL`, and a lookup at second 10 returns `hashCD` as pending again. -/
theorem negative_entry_counterexample :
    hashCD ∈ [hashCD] ∧
    (∀ g, g ∈ ([] : List (hostnameHash smallParams)) → prefixOf g ≠ prefixOf hashCD) ∧
    hasValidRecord smallParams staleChecker 10000000000 hashCD = false ∧
    (storeInCache smallParams staleChecker 10000000000 [hashCD] []).cache.Get (prefixOf hashCD)
      = some [0, 0, 0, 0, 0, 0, 0, 1] ∧
    fromCacheItem smallParams { expiry := 10000000000 + staleChecker.cacheTime, hashes := [] }
      = [0, 0, 0, 0, 0, 0, 0, 11] ∧
    findInCache smallParams (storeInCache smallParams staleChecker 10000000000 [hashCD] [])
      10000000000 [hashCD] = some (false, false, [hashCD]) :=
  ⟨by decide, by decide, by decide, by decide, by decide, by decide⟩

/-- C8 (amended): when the key of a requested hash is absent from the store and no
confirmed hash shares the key, the store holds under that key, after
`storeInCache` at `now`, the encoding of the record with expiry `now + TTL` and
no hashes: the eight bytes of the expiry, which decode to an empty hash list. -/
theorem negative_entry_written (P : Params) (c : Checker) (now : Int)
    (requested confirmed : List (hostnameHash P)) (h : hostnameHash P)
    (hreq : h ∈ requested) (hno : ∀ g, g ∈ confirmed → prefixOf g ≠ prefixOf h)
    (habsent : c.cache.Get (prefixOf h) = none) :
    (storeInCache P c now requested confirmed).cache.Get (prefixOf h) =
        some (fromCacheItem P { expiry := now + c.cacheTime, hashes := [] }) ∧
      fromCacheItem P { expiry := now + c.cacheTime, hashes := [] } =
        uint64Bytes (toUint64 (timeToUnix (now + c.cacheTime))) ∧
      ∃ item, toCacheItem P (fromCacheItem P { expiry := now + c.cacheTime, hashes := [] })
        = some item ∧ item.hashes = [] := by
  refine ⟨store_writes_negative P c now requested confirmed h hreq
    ((groupOf_eq_nil_iff confirmed _).mpr hno) habsent, ?_, ?_⟩
  · rw [fromCacheItem_eq]
    simp [hashBytes]
  · rw [toCacheItem_fromCacheItem]
    exact ⟨_, rfl, by simp⟩

/-- C8 (amended), evaluated on the example of the spec: `Store([hashAB, hashCD],
[hashAB])` at second 10 from an empty store writes under `"cd"` the empty
record that expires at second 11. -/
theorem negative_entry_written_witness :
    (storeInCache smallParams emptyChecker 10000000000 [hashAB, hashCD] [hashAB]).cache.Get
      (prefixOf hashCD) = some [0, 0, 0, 0, 0, 0, 0, 11] :=
  (negative_entry_written smallParams emptyChecker 10000000000 [hashAB, hashCD] [hashAB] hashCD
    (by decide) (by decide) (by decide)).1.trans (by decide)

/-- C9: when a confirmed hash and a requested hash share a key, the value stored
under that key after `storeInCache` is the encoding of the record that holds the
confirmed hashes with that key, a non-empty list, and is not the encoding of an
empty record. -/
theorem positive_not_overridden (P : Params) (c : Checker) (now : Int)
    (requested confirmed : List (hostnameHash P)) (hc hr : hostnameHash P)
    (hconf : hc ∈ confirmed) (_hreq : hr ∈ requested) (hkey : prefixOf hr = prefixOf hc) :
    (storeInCache P c now requested confirmed).cache.Get (prefixOf hr) =
        some (fromCacheItem P
          { expiry := now + c.cacheTime, hashes := groupOf confirmed (prefixOf hr) }) ∧
      hc ∈ groupOf confirmed (prefixOf hr) ∧
      ∀ e, (storeInCache P c now requested confirmed).cache.Get (prefixOf hr) ≠
        some (fromCacheItem P { expiry := e, hashes := [] }) := by
  have hmem : hc ∈ groupOf confirmed (prefixOf hr) := (mem_groupOf _ _ hc).mpr ⟨hconf, hkey.symm⟩
  have hne : groupOf confirmed (prefixOf hr) ≠ [] := List.ne_nil_of_mem hmem
  have hval := store_writes_positive P c now requested confirmed (prefixOf hr) hne
  refine ⟨hval, hmem, ?_⟩
  intro e he
  have hval' : (storeInCache P c now requested confirmed).cache.Get (prefixOf hr) = _ := hval
  rw [hval'] at he
  have hl := congrArg List.length (Option.some.inj he)
  rw [fromCacheItem_length, fromCacheItem_length] at hl
  have hpos : 0 < (groupOf confirmed (prefixOf hr)).length := List.length_pos.mpr hne
  have := Nat.mul_pos (Nat.mul_pos (show 0 < 2 by decide) hpos) P.hashSize_pos
  simp only [List.length_nil] at hl
  omega

/-- C9, evaluated: `hashAB` is confirmed and `hashAB2`, with the same key, is
requested; the record under `"ab"` holds `hashAB`. -/
theorem positive_not_overridden_witness :
    (storeInCache smallParams emptyChecker 0 [hashAB2] [hashAB]).cache.Get (prefixOf hashAB2) =
      some (fromCacheItem smallParams
        { expiry := 0 + emptyChecker.cacheTime, hashes := groupOf [hashAB] (prefixOf hashAB2) }) ∧
    groupOf [hashAB] (prefixOf hashAB2) = [hashAB] :=
  ⟨(positive_not_overridden smallParams emptyChecker 0 [hashAB2] [hashAB] hashAB hashAB2
      (by decide) (by decide) (by decide)).1, by decide⟩

/-- C10: running `storeInCache` a second time with the same arguments, at any
instant, leaves the same keys present as the first run and, under every key,
the same bytes after the eight bytes of the expiry and the same decoded hashes;
only the expiry field may differ. -/
theorem store_idempotent (P : Params) (c : Checker) (now₁ now₂ : Int)
    (requested confirmed : List (hostnameHash P)) (k : List Byte) :
    ((storeInCache P (storeInCache P c now₁ requested confirmed) now₂ requested confirmed).cache.Get
        k).isSome =
      ((storeInCache P c now₁ requested confirmed).cache.Get k).isSome ∧
    ((storeInCache P (storeInCache P c now₁ requested confirmed) now₂ requested confirmed).cache.Get
        k).map (List.drop expirySize) =
      ((storeInCache P c now₁ requested confirmed).cache.Get k).map (List.drop expirySize) ∧
    (((storeInCache P (storeInCache P c now₁ requested confirmed) now₂ requested confirmed).cache.Get
        k).bind (toCacheItem P)).map cacheItem.hashes =
      (((storeInCache P c now₁ requested confirmed).cache.Get k).bind (toCacheItem P)).map
        cacheItem.hashes := by
  by_cases hg : groupOf confirmed k = []
  · have h1 : (storeInCache P (storeInCache P c now₁ requested confirmed) now₂ requested
        confirmed).cache.Get k = (storeInCache P c now₁ requested confirmed).cache.Get k := by
      show (storeInCache P (storeInCache P c now₁ requested confirmed) now₂ requested
        confirmed).cache k = (storeInCache P c now₁ requested confirmed).cache k
      rw [storeInCache_cache P (storeInCache P c now₁ requested confirmed), if_pos hg]
      cases hv : (storeInCache P c now₁ requested confirmed).cache k with
      | some v => rfl
      | none =>
        simp only
        rw [storeInCache_cache, if_pos hg] at hv
        cases hc : c.cache k with
        | some v => rw [hc] at hv; simp at hv
        | none =>
          rw [hc] at hv
          simp only at hv
          by_cases hr : k ∈ requested.map prefixOf
          · rw [if_pos hr] at hv; simp at hv
          · rw [if_neg hr]
    rw [h1]
    exact ⟨rfl, rfl, rfl⟩
  · have h1 : (storeInCache P c now₁ requested confirmed).cache.Get k = _ :=
      store_writes_positive P c now₁ requested confirmed k hg
    have h2 : (storeInCache P (storeInCache P c now₁ requested confirmed) now₂ requested
        confirmed).cache.Get k = _ :=
      store_writes_positive P (storeInCache P c now₁ requested confirmed) now₂ requested confirmed
        k hg
    rw [h1, h2]
    refine ⟨rfl, ?_, ?_⟩
    · simp only [Option.map_some', fromCacheItem_drop]
    · simp only [Option.some_bind, toCacheItem_fromCacheItem, Option.map_some']

/-- C11 as stated fails: on the empty payload and on a payload of three bytes
`toCacheItem` ends in a panic, not in the error `MalformedRecord`. -/
theorem decode_short_counterexample :
    ([] : List Byte).length < 8 ∧
    decodeOutcome smallParams [] = DecodeOutcome.panic ∧
    decodeOutcome smallParams [] ≠ DecodeOutcome.malformedRecord ∧
    decodeOutcome smallParams [1, 2, 3] = DecodeOutcome.panic ∧
    decodeOutcome smallParams [1, 2, 3] ≠ DecodeOutcome.malformedRecord :=
  ⟨by decide, by decide, by decide, by decide, by decide⟩

/-- C11 (amended): on every payload shorter than eight bytes, the empty one
included, `toCacheItem` returns no record and no error: it ends in the
index-out-of-range panic of `binary.BigEndian.Uint64`. -/
theorem decode_short_panics (P : Params) (data : List Byte) (hshort : data.length < 8) :
    toCacheItem P data = none ∧ decodeOutcome P data = DecodeOutcome.panic := by
  have h := toCacheItem_short P data hshort
  refine ⟨h, ?_⟩
  unfold decodeOutcome
  rw [h]

/-- C11 (amended), evaluated on a payload of seven bytes. -/
theorem decode_short_panics_witness :
    decodeOutcome smallParams [0, 0, 0, 0, 0, 0, 9] = DecodeOutcome.panic :=
  (decode_short_panics smallParams [0, 0, 0, 0, 0, 0, 9] (by decide)).2

/-- C12 as stated fails: a three-byte value is stored under the key of `hashCD`;
the lookup of `[hashCD]` panics, where the same lookup with the key absent
returns `hashCD` as pending. -/
theorem malformed_value_counterexample :
    brokenChecker.cache.Get (prefixOf hashCD) = some [1, 2, 3] ∧
    ([1, 2, 3] : List Byte).length < 8 ∧
    findInCache smallParams brokenChecker 0 [hashCD] = none ∧
    findInCache smallParams emptyChecker 0 [hashCD] = some (false, false, [hashCD]) :=
  ⟨by decide, by decide, by decide, by decide⟩

/-- C12 (amended): when the store holds, under the key of a candidate, a value
shorter than eight bytes, `findInCache` never returns that candidate as pending:
it either returns `(true, true, [])` on a match found at an earlier candidate or
panics; it panics whenever the values under the keys of the earlier candidates
decode and no valid record among them lists a hash of the batch. -/
theorem malformed_value_panics (P : Params) (c : Checker) (now : Int)
    (l₁ l₂ : List (hostnameHash P)) (h : hostnameHash P) (data : List Byte)
    (hget : c.cache.Get (prefixOf h) = some data) (hshort : data.length < 8) :
    (findInCache P c now (l₁ ++ h :: l₂) = none ∨
      findInCache P c now (l₁ ++ h :: l₂) = some (true, true, [])) ∧
    ((∀ g, g ∈ l₁ → ∀ d, c.cache.Get (prefixOf g) = some d → toCacheItem P d ≠ none) →
      (∀ g, g ∈ l₁ → ∀ d, c.cache.Get (prefixOf g) = some d →
        ∀ item, toCacheItem P d = some item → ¬ item.expiry < now →
          ∀ x, x ∈ l₁ ++ h :: l₂ → x ∉ item.hashes) →
      findInCache P c now (l₁ ++ h :: l₂) = none) := by
  have hf : fetch P c now h = none := fetch_short P c now h data hget hshort
  constructor
  · rw [findInCache_eq]
    exact lookupFrom_panic_or_blocked P c now _ _ [] h (by simp) hf
  · intro hwf hno
    rw [findInCache_eq, lookupFrom_skip P c now _ l₁ (h :: l₂) [] (by simp)
      (fun g hg => List.mem_append_left _ hg) (lookup_no_panic P c now l₁ hwf), lookupFrom, hf]
    intro g hg item hfi x hx
    obtain ⟨d, h1, h2, h3⟩ := (fetch_valid_iff P c now g item).mp hfi
    exact hno g hg d h1 item h2 h3 x hx

/-- C12 (amended), evaluated: the candidate with the three-byte value stands after a
candidate with nothing stored under its key, and the lookup panics. -/
theorem malformed_value_panics_witness :
    findInCache smallParams brokenChecker 0 ([hashZ1] ++ hashCD :: []) = none :=
  (malformed_value_panics smallParams brokenChecker 0 [hashZ1] [] hashCD [1, 2, 3]
    (by decide) (by decide)).2 (by decide) (by decide)

/-- C13 (code defect): for a record with at least one hash, `fromCacheItem` writes the
eight bytes of the expiry, then `hashSize` zero bytes for each hash, and only then
the bytes of the hashes; the length is `8 + 2 * hashSize * |hashes|`, not
`8 + hashSize * |hashes|`, and the bytes differ from the layout of the claim. -/
theorem encoded_layout_padded (P : Params) (r : cacheItem P) (hne : r.hashes ≠ []) :
    fromCacheItem P r =
        uint64Bytes (toUint64 (timeToUnix r.expiry)) ++
          (List.replicate (r.hashes.length * P.hashSize) 0 ++ hashBytes r.hashes) ∧
      (fromCacheItem P r).length = 8 + 2 * (P.hashSize * r.hashes.length) ∧
      (fromCacheItem P r).length ≠ 8 + P.hashSize * r.hashes.length ∧
      fromCacheItem P r ≠ uint64Bytes (toUint64 (timeToUnix r.expiry)) ++ hashBytes r.hashes := by
  have hpos : 0 < r.hashes.length := List.length_pos.mpr hne
  have hmul : 0 < P.hashSize * r.hashes.length := Nat.mul_pos P.hashSize_pos hpos
  have hlen : (fromCacheItem P r).length = 8 + 2 * (P.hashSize * r.hashes.length) := by
    rw [fromCacheItem_length]
    ring
  refine ⟨?_, hlen, by omega, ?_⟩
  · rw [fromCacheItem_eq, hashBytes_append, hashBytes_replicate_zero]
  · intro h
    have h2 := congrArg List.length h
    rw [hlen, List.length_append, uint64Bytes_length, hashBytes_length] at h2
    have : r.hashes.length * P.hashSize = P.hashSize * r.hashes.length := Nat.mul_comm _ _
    omega

/-- C13, evaluated: the record that expires at second 5 and holds `hashAB` is
encoded in sixteen bytes, four of them zero padding, where the layout of the
claim has twelve. -/
theorem encoded_layout_padded_witness :
    ({ expiry := 5000000000, hashes := [hashAB] } : cacheItem smallParams).hashes ≠ [] ∧
    fromCacheItem smallParams { expiry := 5000000000, hashes := [hashAB] }
      = [0, 0, 0, 0, 0, 0, 0, 5, 0, 0, 0, 0, 0x61, 0x62, 1, 1] ∧
    (fromCacheItem smallParams { expiry := 5000000000, hashes := [hashAB] }).length
      ≠ 8 + smallParams.hashSize * 1 :=
  ⟨by decide, by decide,
    (encoded_layout_padded smallParams { expiry := 5000000000, hashes := [hashAB] }
      (by decide)).2.2.1⟩

/-- C14 (code defect): on a payload of at least eight bytes `toCacheItem` panics
when trailing bytes do not fill a whole chunk; when the payload is a whole
number `m` of chunks it returns `2 * m` hashes, `m` zero hashes followed by the
`m` chunks in encounter order. -/
theorem decode_chunks_padded (P : Params) (data : List Byte) (hlen : 8 ≤ data.length) :
    ((data.length - 8) % P.hashSize ≠ 0 → toCacheItem P data = none) ∧
    ((data.length - 8) % P.hashSize = 0 →
      ∃ item, toCacheItem P data = some item ∧
        item.hashes.length = 2 * ((data.length - 8) / P.hashSize) ∧
        item.hashes.take ((data.length - 8) / P.hashSize) =
          List.replicate ((data.length - 8) / P.hashSize) (zeroHash P) ∧
        ∀ k, k < (data.length - 8) / P.hashSize →
          ((item.hashes.drop ((data.length - 8) / P.hashSize)).get? k).map Subtype.val =
            some ((data.drop (8 + k * P.hashSize)).take P.hashSize)) := by
  refine ⟨toCacheItem_trailing P data, ?_⟩
  intro hmod
  have hdl : (data.drop expirySize).length = (data.length - 8) / P.hashSize * P.hashSize := by
    rw [List.length_drop]
    exact (Nat.div_mul_cancel (Nat.dvd_of_mod_eq_zero hmod)).symm
  obtain ⟨l, hl1, hl2⟩ := exists_hashBytes P _ _ hdl
  obtain ⟨u, hu⟩ := uint64Of_isSome data hlen
  refine ⟨_, toCacheItem_of_chunks P data u l hu hl2.symm, ?_, ?_, ?_⟩
  · simp only [List.length_append, List.length_replicate, hl1]
    omega
  · rw [hl1]
    exact List.take_left' (List.length_replicate _ _)
  · intro k hk
    rw [hl1, List.drop_left' (List.length_replicate _ _)]
    have hk' : k < l.length := by rw [hl1]; exact hk
    rw [List.get?_eq_get hk', Option.map_some', ← hashBytes_chunk l k hk', hl2, List.drop_drop]
    rfl

/-- C14, evaluated: a payload with one whole chunk comes back as two hashes, the
zero hash and the chunk; one more byte after the chunk makes the decoding
panic. -/
theorem decode_chunks_padded_witness :
    toCacheItem smallParams [0, 0, 0, 0, 0, 0, 0, 9, 0x61, 0x62, 1, 1]
      = some { expiry := 9000000000, hashes := [zeroHash smallParams, hashAB] } ∧
    toCacheItem smallParams [0, 0, 0, 0, 0, 0, 0, 9, 0x61, 0x62, 1, 1, 7] = none :=
  ⟨by decide,
    (decode_chunks_padded smallParams [0, 0, 0, 0, 0, 0, 0, 9, 0x61, 0x62, 1, 1, 7]
      (by decide)).1 (by decide)⟩

/-- C15: the first eight bytes of `fromCacheItem r` are the big-endian form of the
Unix seconds of `r.expiry` as a `uint64`, whatever the hash list; and the record
decoded from `fromCacheItem r` has the expiry `r.expiry` rounded down to a whole
second, so the two agree to the second. -/
theorem expiry_field (P : Params) (r : cacheItem P)
    (hlo : -9223372036854775808 ≤ timeToUnix r.expiry)
    (hhi : timeToUnix r.expiry < 9223372036854775808) :
    (fromCacheItem P r).take 8 = uint64Bytes (toUint64 (timeToUnix r.expiry)) ∧
      uint64Of (fromCacheItem P r) = some (toUint64 (timeToUnix r.expiry)) ∧
      ∃ item, toCacheItem P (fromCacheItem P r) = some item ∧
        item.expiry = timeUnix (timeToUnix r.expiry) ∧
        timeToUnix item.expiry = timeToUnix r.expiry := by
  have hm : toUint64 (timeToUnix r.expiry) % 18446744073709551616
      = toUint64 (timeToUnix r.expiry) := by
    apply Nat.mod_eq_of_lt
    unfold toUint64
    have := Int.emod_lt_of_pos (timeToUnix r.expiry) (show (0:Int) < 18446744073709551616 by decide)
    have := Int.emod_nonneg (timeToUnix r.expiry) (show (18446744073709551616:Int) ≠ 0 by decide)
    omega
  refine ⟨?_, ?_, _, toCacheItem_fromCacheItem_inRange P r hlo hhi, rfl, ?_⟩
  · rw [fromCacheItem_eq]
    exact List.take_left' (uint64Bytes_length _)
  · rw [fromCacheItem_eq, uint64Of_uint64Bytes, hm]
  · exact timeToUnix_timeUnix _

/-- C15, evaluated: a record with expiry 5.25 s and one hash is encoded with the
expiry bytes `00 00 00 00 00 00 00 05` and decoded with expiry 5 s. -/
theorem expiry_field_witness :
    (fromCacheItem smallParams { expiry := 5250000000, hashes := [hashAB] }).take 8
      = [0, 0, 0, 0, 0, 0, 0, 5] ∧
    (toCacheItem smallParams
      (fromCacheItem smallParams { expiry := 5250000000, hashes := [hashAB] })).map
        cacheItem.expiry = some 5000000000 :=
  ⟨(expiry_field smallParams { expiry := 5250000000, hashes := [hashAB] }
      (by decide) (by decide)).1.trans (by decide), by decide⟩

/-- C16: for every confirmed hash `h`, the value stored under the key of `h` after
`storeInCache` at `now` is the encoding of the record with expiry `now + TTL`
whose hashes are the confirmed hashes with that key, in the order of
`confirmed`. -/
theorem positive_entry_written (P : Params) (c : Checker) (now : Int)
    (requested confirmed : List (hostnameHash P)) (h : hostnameHash P) (hconf : h ∈ confirmed) :
    (storeInCache P c now requested confirmed).cache.Get (prefixOf h) =
      some (fromCacheItem P
        { expiry := now + c.cacheTime,
          hashes := confirmed.filter (fun g => decide (prefixOf g = prefixOf h)) }) := by
  have hmem : h ∈ groupOf confirmed (prefixOf h) := (mem_groupOf _ _ h).mpr ⟨hconf, rfl⟩
  exact store_writes_positive P c now requested confirmed (prefixOf h) (List.ne_nil_of_mem hmem)

/-- C16, evaluated: `hashAB`, `hashCD` and `hashAB2` are confirmed in this order; the
record under `"ab"` holds `[hashAB, hashAB2]` and replaces the stale one. -/
theorem positive_entry_written_witness :
    (storeInCache smallParams negativeChecker 0 [] [hashAB, hashCD, hashAB2]).cache.Get
        (prefixOf hashAB2) =
      some (fromCacheItem smallParams
        { expiry := 0 + negativeChecker.cacheTime, hashes := [hashAB, hashAB2] }) :=
  positive_entry_written smallParams negativeChecker 0 [] [hashAB, hashCD, hashAB2] hashAB2
    (by decide)

/-- C17 (code defect): the loop compares records with the slice it has already
overwritten.  In `[hashAB, hashZ1, hashCD]` the candidate `hashCD` has a valid
record that lists the earlier candidate `hashAB`, but `hashAB`, which has a
valid record and is not pending, has been overwritten by the pending `hashZ1`
when `hashCD` is reached: the result is `(false, false, [hashZ1])`.  With
`hashZ1` first, the same batch is blocked.  The same happens on a store written
by `storeInCache`, where the record of `hashCD2` lists the zero hash. -/
theorem full_batch_lost_candidate :
    (hashAB ∈ [hashAB, hashZ1, hashCD] ∧
      shadowChecker.cache.Get (prefixOf hashCD) = some [0, 0, 0, 0, 0, 0, 0, 9, 0x61, 0x62, 1, 1] ∧
      toCacheItem smallParams [0, 0, 0, 0, 0, 0, 0, 9, 0x61, 0x62, 1, 1]
        = some { expiry := 9000000000, hashes := [zeroHash smallParams, hashAB] } ∧
      hasValidRecord smallParams shadowChecker 0 hashCD = true ∧
      findInCache smallParams shadowChecker 0 [hashAB, hashZ1, hashCD]
        = some (false, false, [hashZ1]) ∧
      findInCache smallParams shadowChecker 0 [hashZ1, hashAB, hashCD]
        = some (true, true, [])) ∧
    (hasValidRecord smallParams
        (storeInCache smallParams emptyChecker 0 [zeroHash smallParams, hashCD] [hashCD]) 0 hashCD2
        = true ∧
      (((storeInCache smallParams emptyChecker 0 [zeroHash smallParams, hashCD] [hashCD]).cache.Get
        (prefixOf hashCD2)).bind (toCacheItem smallParams)).map cacheItem.hashes
        = some [zeroHash smallParams, zeroHash smallParams, zeroHash smallParams, hashCD] ∧
      findInCache smallParams
        (storeInCache smallParams emptyChecker 0 [zeroHash smallParams, hashCD] [hashCD]) 0
        [zeroHash smallParams, hashAB, hashCD2] = some (false, false, [hashAB])) :=
  ⟨⟨by decide, by decide, by decide, by decide, by decide, by decide⟩,
    by decide, by decide, by decide⟩

/-- C18 (code defect): the record that `storeInCache` writes for a confirmed hash `h`
decodes to the confirmed hashes with the key of `h` preceded by zero hashes;
when the key of `h` is not the key of the zero hash, the decoded record holds a
hash, the zero hash, whose leading bytes are not the key it is stored under. -/
theorem stored_record_zero_padding (P : Params) (c : Checker) (now : Int)
    (requested confirmed : List (hostnameHash P)) (h : hostnameHash P) (hconf : h ∈ confirmed)
    (hkey : prefixOf (zeroHash P) ≠ prefixOf h) :
    ∃ item, ((storeInCache P c now requested confirmed).cache.Get (prefixOf h)).bind
        (toCacheItem P) = some item ∧
      zeroHash P ∈ item.hashes ∧ prefixOf (zeroHash P) ≠ prefixOf h ∧
      ∀ g, g ∈ item.hashes → g = zeroHash P ∨ (g ∈ confirmed ∧ prefixOf g = prefixOf h) := by
  have hmem : h ∈ groupOf confirmed (prefixOf h) := (mem_groupOf _ _ h).mpr ⟨hconf, rfl⟩
  have hne : groupOf confirmed (prefixOf h) ≠ [] := List.ne_nil_of_mem hmem
  have hpos : 0 < (groupOf confirmed (prefixOf h)).length := List.length_pos.mpr hne
  have hval : (storeInCache P c now requested confirmed).cache.Get (prefixOf h) = _ :=
    store_writes_positive P c now requested confirmed (prefixOf h) hne
  rw [hval, Option.some_bind, toCacheItem_fromCacheItem]
  refine ⟨_, rfl, ?_, hkey, ?_⟩
  · apply List.mem_append_left
    rw [List.mem_replicate]
    have h3 : 3 * (groupOf confirmed (prefixOf h)).length ≠ 0 := by omega
    exact ⟨h3, rfl⟩
  · intro g hg
    rcases mem_replicate_zero_append _ _ g hg with h0 | h1
    · exact Or.inl h0
    · exact Or.inr ((mem_groupOf _ _ g).mp h1)

/-- C18, evaluated: after `Store([], [hashAB])` the record under `"ab"` decodes to
`[0, 0, 0, hashAB]`, and the key of the zero hash is `00 00`. -/
theorem stored_record_zero_padding_witness :
    (((storeInCache smallParams emptyChecker 0 [] [hashAB]).cache.Get (prefixOf hashAB)).bind
        (toCacheItem smallParams)).map cacheItem.hashes =
      some [zeroHash smallParams, zeroHash smallParams, zeroHash smallParams, hashAB] ∧
    prefixOf (zeroHash smallParams) = [0, 0] ∧ prefixOf hashAB = [0x61, 0x62] ∧
    ∃ item, ((storeInCache smallParams emptyChecker 0 [] [hashAB]).cache.Get
        (prefixOf hashAB)).bind (toCacheItem smallParams) = some item ∧
      zeroHash smallParams ∈ item.hashes :=
  ⟨by decide, by decide, by decide,
    (stored_record_zero_padding smallParams emptyChecker 0 [] [hashAB] hashAB (by decide)
      (by decide)).imp (fun _ hi => ⟨hi.1, hi.2.1⟩)⟩

/-- C19: when the values stored under the keys of the candidates decode,
`findInCache` returns a triple in which `found` is true exactly when the pending
list is empty and `blocked` implies `found`; so `found = false` comes with
`blocked = false` and a non-empty pending list. -/
theorem result_shape (P : Params) (c : Checker) (now : Int) (hashes : List (hostnameHash P))
    (hwf : ∀ g, g ∈ hashes → ∀ d, c.cache.Get (prefixOf g) = some d → toCacheItem P d ≠ none) :
    ∃ f b p, findInCache P c now hashes = some (f, b, p) ∧
      (f = true ↔ p = []) ∧ (b = true → f = true) ∧
      (f = false → b = false ∧ p ≠ []) := by
  obtain ⟨⟨f, b, p⟩, hr⟩ := lookupFrom_total P c now hashes hashes []
    (lookup_no_panic P c now hashes hwf)
  obtain ⟨h1, h2⟩ := lookupFrom_shape P c now hashes hashes [] f b p hr
  refine ⟨f, b, p, by rw [findInCache_eq, hr], h1, h2, ?_⟩
  intro hf
  constructor
  · cases b with
    | false => rfl
    | true => rw [h2 rfl] at hf; exact absurd hf (by decide)
  · intro hp
    rw [h1.mpr hp] at hf
    exact absurd hf (by decide)

/-- C19, evaluated: one candidate of three has no record, and the result is
`(false, false, [hashZ1])`. -/
theorem result_shape_witness :
    ∃ f b p, findInCache smallParams negativeChecker 0 [hashAB, hashCD, hashZ1] = some (f, b, p) ∧
      (f = true ↔ p = []) ∧ (b = true → f = true) ∧ (f = false → b = false ∧ p ≠ []) :=
  result_shape smallParams negativeChecker 0 [hashAB, hashCD, hashZ1] (by decide)

/-- C20: `storeInCache` leaves unchanged the value, or the absence of a value, under
every key that is the key of no requested and of no confirmed hash, and leaves
unchanged every value already present under a key of no confirmed hash, the
keys of requested hashes included. -/
theorem store_frame (P : Params) (c : Checker) (now : Int)
    (requested confirmed : List (hostnameHash P)) (k : List Byte) :
    ((∀ g, g ∈ requested → prefixOf g ≠ k) → (∀ g, g ∈ confirmed → prefixOf g ≠ k) →
      (storeInCache P c now requested confirmed).cache.Get k = c.cache.Get k) ∧
    (∀ v, (∀ g, g ∈ confirmed → prefixOf g ≠ k) → c.cache.Get k = some v →
      (storeInCache P c now requested confirmed).cache.Get k = some v) := by
  constructor
  · intro hreq hconf
    show (storeInCache P c now requested confirmed).cache k = c.cache k
    rw [storeInCache_cache, if_pos ((groupOf_eq_nil_iff confirmed k).mpr hconf)]
    cases hc : c.cache k with
    | some v => rfl
    | none =>
      have hk : k ∉ requested.map prefixOf := by
        intro hm
        obtain ⟨g, hg1, hg2⟩ := List.mem_map.mp hm
        exact hreq g hg1 hg2
      simp only [if_neg hk]
  · intro v hconf hv
    exact store_keeps_present P c now requested confirmed k v
      ((groupOf_eq_nil_iff confirmed k).mpr hconf) hv

/-- C20, evaluated: `Store([hashCD], [hashAB])` at second 10 keeps the record that
expired at second 1 under the requested key `"cd"` and leaves the key `00 00`
absent. -/
theorem store_frame_witness :
    (storeInCache smallParams staleChecker 10000000000 [hashCD] [hashAB]).cache.Get
        (prefixOf hashCD) = some [0, 0, 0, 0, 0, 0, 0, 1] ∧
    (storeInCache smallParams staleChecker 10000000000 [hashCD] [hashAB]).cache.Get [0, 0]
      = staleChecker.cache.Get [0, 0] :=
  ⟨(store_frame smallParams staleChecker 10000000000 [hashCD] [hashAB] (prefixOf hashCD)).2
      [0, 0, 0, 0, 0, 0, 0, 1] (by decide) (by decide),
    (store_frame smallParams staleChecker 10000000000 [hashCD] [hashAB] [0, 0]).1
      (by decide) (by decide)⟩

end Hashprefix
